import Mathlib

/-!
Verification development for the offline-cache service worker
(src/service-worker.js of io-spectre/sugarshock).

The worker keeps a persistent index (an IndexedDB object store keyed by
record path) and a blob cache (the Cache API storage) in sync with a
remote asset manifest.  The JavaScript source is embedded shallowly:

* IndexedDB object store  ->  association list of records keyed by path
  (IndexedDB holds at most one record per key and exposes no insertion
  order, so two stores with the same key-to-record map are the same
  store; extensional lookup equality is store identity).
* Cache API storage       ->  association list keyed by the scope
  relative request path, mapping to the cached response body.
* network / failure injection -> an explicit environment record.
* the "concurrent" per-path passes of refreshCache (Promise.all over
  per-path tasks touching disjoint keys) -> left folds in list order;
  the tasks own disjoint keys, so any interleaving produces the state
  computed by the fold.
-/

namespace SW

/-- An entry of the parsed asset manifest: source shape { hash, path }. -/
structure AssetEntry where
  hash : String
  path : String
deriving DecidableEq, Repr

/-- The parsed asset manifest as produced by fetchAssetIndex:
source shape { hash, lastModified, entries }. -/
structure AssetIndex where
  hash : String
  lastModified : Option String
  entries : List AssetEntry
deriving DecidableEq, Repr

/-- A record of the IndexedDB 'asset' object store (keyPath: 'path').
Asset records are { path, hash } (no lastModified); the reserved
sentinel record additionally carries the manifest Last-Modified value. -/
structure IndexRecord where
  path : String
  hash : String
  lastModified : Option String
deriving DecidableEq, Repr

/-- IDB_KEY_OFFLINE_INDEX: the reserved sentinel key of the index store. -/
def IDB_KEY_OFFLINE_INDEX : String := "offline-index.txt"

/-- The IndexedDB 'asset' object store: at most one record per path. -/
abbrev IdxStore := List IndexRecord

/-- The blob cache: scope-relative request path to cached body. -/
abbrev BlobCache := List (String × String)

/-- idbGet(db, 'asset', key): the record stored under the given path. -/
def idxGet : IdxStore → String → Option IndexRecord
  | [], _ => none
  | r :: rest, p => if r.path = p then some r else idxGet rest p

/-- idbPut(db, 'asset', value): replace the record with the same path,
or insert the record if no record has that path. -/
def idxPut : IdxStore → IndexRecord → IdxStore
  | [], r => [r]
  | x :: rest, r => if x.path = r.path then r :: rest else x :: idxPut rest r

/-- idbDelete(db, 'asset', key): remove the record stored under the path. -/
def idxDelete : IdxStore → String → IdxStore
  | [], _ => []
  | x :: rest, p => if x.path = p then idxDelete rest p else x :: idxDelete rest p

/-- cache.match for a key already in scope-relative form. -/
def cacheGet : BlobCache → String → Option String
  | [], _ => none
  | kv :: rest, k => if kv.1 = k then some kv.2 else cacheGet rest k

/-- Store a fetched body under a scope-relative key (part of cache.add). -/
def cachePut : BlobCache → String → String → BlobCache
  | [], k, v => [(k, v)]
  | kv :: rest, k, v => if kv.1 = k then (k, v) :: rest else kv :: cachePut rest k v

/-- cache.delete(request). -/
def cacheDelete : BlobCache → String → BlobCache
  | [], _ => []
  | kv :: rest, k => if kv.1 = k then cacheDelete rest k else kv :: cacheDelete rest k

/-- The worker-visible persistent state: the index store and the blob cache. -/
structure SWState where
  idx : IdxStore
  cache : BlobCache
deriving DecidableEq, Repr

/-- path.startsWith('./'). -/
def startsWithDotSlash (p : String) : Bool :=
  ['.', '/'].isPrefixOf p.data

/-- The scope-relative key of a path, i.e. the pathname of
new URL(path, self.registration.scope) with the scopePath prefix removed.
For a './'-prefixed path this strips the './'; a bare relative path
(such as the sentinel key) resolves to itself. -/
def resolvePath (p : String) : String :=
  if startsWithDotSlash p then String.mk (p.data.drop 2) else p

/-- The derived path of a cached request in the eviction pass:
'./' + new URL(request.url).pathname.slice(scopePath.length). -/
def derivedPath (k : String) : String :=
  String.mk ('.' :: '/' :: k.data)

/-- Failure-injection environment for a refresh cycle.
net models the network fetch performed by cache.add (none = the fetch
rejects or returns a non-ok response); putFails / deleteFails model
rejecting idbPut / idbDelete requests for a given record path;
readKeysFails models the getAllKeys request firing its error event. -/
structure Env where
  net : String → Option String
  putFails : String → Bool
  deleteFails : String → Bool
  readKeysFails : Bool

/-- The fetch-and-store step of updateOfflineAsset after the digest
comparison decided to update: await cache.add(entry.path) followed by
await idbPut(db, 'asset', entry).  Returns the new state, the number of
asset network fetches issued, and whether the returned promise rejected. -/
def updateOfflineAssetFetch (env : Env) (entry : AssetEntry) (s : SWState) :
    SWState × Nat × Bool :=
  match env.net entry.path with
  | none => (s, 1, true)
  | some body =>
    let s1 : SWState := { s with cache := cachePut s.cache (resolvePath entry.path) body }
    if env.putFails entry.path then (s1, 1, true)
    else ({ s1 with idx := idxPut s1.idx ⟨entry.path, entry.hash, none⟩ }, 1, false)

/-- updateOfflineAsset(entry, cache, db): skip when the recorded digest
equals the manifest digest (currentEntry?.hash === entry.hash), else
fetch the asset into the cache and record the new digest. -/
def updateOfflineAsset (env : Env) (entry : AssetEntry) (s : SWState) :
    SWState × Nat × Bool :=
  match idxGet s.idx entry.path with
  | some currentEntry =>
    if currentEntry.hash = entry.hash then (s, 0, false)
    else updateOfflineAssetFetch env entry s
  | none => updateOfflineAssetFetch env entry s

/-- One step of the Promise.all accumulation over manifest entries:
run updateOfflineAsset, add its fetch count, or its rejection flag. -/
def updateFold (env : Env) (acc : SWState × Nat × Bool) (e : AssetEntry) :
    SWState × Nat × Bool :=
  match updateOfflineAsset env e acc.1 with
  | (s1, n, f) => (s1, acc.2.1 + n, acc.2.2 || f)

/-- Promise.all(assetIndex.entries.map(entry => updateOfflineAsset(...))):
every per-entry task runs to settlement (Promise.all does not cancel the
others when one rejects); the combined promise rejects if any task did.
Accumulates the state, the total fetch count and the rejection flag. -/
def updateAllAssets (env : Env) (entries : List AssetEntry) (s : SWState) :
    SWState × Nat × Bool :=
  entries.foldl (updateFold env) (s, 0, false)

/-- One step of the self-healing pass: if the cache holds no body for
new URL(path, scope), delete the stale index record for the path;
an idbDelete failure is caught and logged only. -/
def pruneStep (env : Env) (st : SWState) (p : String) : SWState :=
  if (cacheGet st.cache (resolvePath p)).isSome then st
  else if env.deleteFails p then st
  else { st with idx := idxDelete st.idx p }

/-- The self-healing pass over previouslyKnownEntries. -/
def pruneStaleIndex (env : Env) (prev : List String) (s : SWState) : SWState :=
  prev.foldl (pruneStep env) s

/-- One step of the obsolete-record pass: a previously known path not
in knownPaths is deleted from the index; failures caught and logged. -/
def evictIndexStep (env : Env) (known : List String) (st : SWState) (p : String) :
    SWState :=
  if known.contains p then st
  else if env.deleteFails p then st
  else { st with idx := idxDelete st.idx p }

/-- The obsolete-record pass over previouslyKnownEntries. -/
def evictIndex (env : Env) (prev known : List String) (s : SWState) : SWState :=
  prev.foldl (evictIndexStep env known) s

/-- One step of the cache eviction pass: delete the cached entry if its
derived path is not in knownPaths. -/
def evictCacheStep (known : List String) (st : SWState) (k : String) : SWState :=
  if known.contains (derivedPath k) then st
  else { st with cache := cacheDelete st.cache k }

/-- The authoritative cache eviction pass: enumerate cache.keys() once,
then delete every entry whose derived path is not in knownPaths. -/
def evictCache (known : List String) (s : SWState) : SWState :=
  (s.cache.map (fun kv => kv.1)).foldl (evictCacheStep known) s

/-- Outcome of a refreshCache invocation: the promise resolved, the
promise rejected (with all already-performed mutations kept), or the
promise never settles.  Each outcome carries the resulting state; done
and rejected also carry the number of asset network fetches issued. -/
inductive RefreshResult where
  | done (s : SWState) (fetches : Nat)
  | rejected (s : SWState) (fetches : Nat)
  | hung (s : SWState)
deriving DecidableEq, Repr

/-- refreshCache(cachedAssetIndex, offlineAssetIndexDB).

The first argument is the resolved manifest (the supplied one, or the
fetchAssetIndex() result when none was supplied); none means no manifest
was obtainable and the cycle returns with no mutation.

When the getAllKeys request errors, the source error listener reads
event.source - which is undefined on a plain event (the working read
would be event.target.source) - and calls .clear() on it; this throws a
TypeError inside the listener, so the wrapping promise (whose executor
also never binds the reject it calls on the inner path) never settles
and the cycle hangs: RefreshResult.hung.

Otherwise the cycle runs: prune index records whose cache body is gone,
update every manifest entry, delete index records and cache entries not
in the manifest path set, then write the sentinel record. -/
def refreshCache (env : Env) (cachedAssetIndex : Option AssetIndex) (s0 : SWState) :
    RefreshResult :=
  match cachedAssetIndex with
  | none => .done s0 0
  | some assetIndex =>
    if env.readKeysFails then .hung s0
    else
      let prev := s0.idx.map (fun r => r.path)
      let s1 := pruneStaleIndex env prev s0
      match updateAllAssets env assetIndex.entries s1 with
      | (s2, fetches, failed) =>
        if failed then .rejected s2 fetches
        else
          let known := assetIndex.entries.map (fun e => e.path)
          let s3 := evictIndex env prev known s2
          let s4 := evictCache known s3
          if env.putFails IDB_KEY_OFFLINE_INDEX then .rejected s4 fetches
          else .done
            { s4 with idx := idxPut s4.idx ⟨IDB_KEY_OFFLINE_INDEX, assetIndex.hash, assetIndex.lastModified⟩ }
            fetches

/-! ### The fetch event handler (request interceptor) -/

/-- What the handler ultimately serves the request from. -/
inductive Served where
  | network
  | fromCache
deriving DecidableEq, Repr

/-- Environment of one fetch-handler run.  idbOpenFails: the
initOfflineAssetIndex() open request errors; idbGetFails: the idbGet of
the sentinel record rejects; fetchAssetIndexResult: the outcome of
fetchAssetIndex(lastModified) (which catches its own failures and
yields null, modelled as none, without logging). -/
structure FetchEnv where
  idbOpenFails : Bool
  idbGetFails : Bool
  fetchAssetIndexResult : Option String → Option AssetIndex

/-- Observable outcome of one fetch-handler run: what was served,
whether synchronizedRefreshCache was invoked by this request, and
whether the handler logged the 'Failed to retrieve offline index
entry' error of its try/catch block. -/
structure HandleResult where
  served : Served
  refreshTriggered : Bool
  loggedIndexError : Bool
deriving DecidableEq, Repr

/-- requestPath.slice(scopePath.length): the scope-relative key of the
request, which is also its key in the blob cache. -/
def requestKey (scopePath requestPath : String) : String :=
  String.mk (requestPath.data.drop scopePath.data.length)

/-- caches.match(request) ?? fetch(event.request). -/
def cacheOrNetwork (s : SWState) (rel : String) : Served :=
  if (cacheGet s.cache rel).isSome then .fromCache else .network

/-- The fetch event handler.  refreshCachePromise is the in-flight
refresh handle (none when no refresh is outstanding); scopePath and
requestPath are the pathname of the registration scope and the request.

Paths: (1) a refresh is in flight: forward to the network at once;
(2) the request is the navigation entry point ('' or 'index.html'
relative to scope): open the index and read the sentinel record inside
try/catch (a failure is logged and leaves the corresponding value
undefined); when the open failed, skip the whole check; otherwise fetch
the manifest (conditioned on the sentinel Last-Modified) and, when a
manifest was obtained whose hash differs from the sentinel hash
(undefined when the read failed), trigger a refresh and serve from the
network; (3) otherwise serve from the cache with network fallback. -/
def handleFetch (refreshCachePromise : Option Nat) (scopePath requestPath : String)
    (env : FetchEnv) (s : SWState) : HandleResult :=
  if refreshCachePromise.isSome then ⟨.network, false, false⟩
  else
    let rel := requestKey scopePath requestPath
    if rel = "" ∨ rel = "index.html" then
      if env.idbOpenFails then ⟨cacheOrNetwork s rel, false, true⟩
      else
        let cachedIndex : Option IndexRecord :=
          if env.idbGetFails then none else idxGet s.idx IDB_KEY_OFFLINE_INDEX
        let logged := env.idbGetFails
        match env.fetchAssetIndexResult (cachedIndex.bind (fun r => r.lastModified)) with
        | some assetIndex =>
          if cachedIndex.map (fun r => r.hash) ≠ some assetIndex.hash then
            ⟨.network, true, logged⟩
          else ⟨cacheOrNetwork s rel, false, logged⟩
        | none => ⟨cacheOrNetwork s rel, false, logged⟩
    else ⟨cacheOrNetwork s rel, false, false⟩

/-! ### The single-flight coordinator (synchronizedRefreshCache)

The global refreshCachePromise is modelled as an optional cycle id;
started records the ids of all refresh cycles whose mutations were
started (the refreshCache(...) invocations). -/

/-- Coordinator state: the in-flight handle, a fresh-id counter, and
the list of cycle ids whose refreshCache invocation was started. -/
structure CoordState where
  inFlight : Option Nat
  nextId : Nat
  started : List Nat
deriving DecidableEq, Repr

/-- synchronizedRefreshCache(): when refreshCachePromise is non-null
return it unchanged; otherwise start a fresh refreshCache cycle, store
its promise and return it.  The returned Nat is the cycle id whose
outcome the caller observes. -/
def synchronizedRefreshCache (s : CoordState) : CoordState × Nat :=
  match s.inFlight with
  | some c => (s, c)
  | none => (⟨some s.nextId, s.nextId + 1, s.started ++ [s.nextId]⟩, s.nextId)

/-- Events at the coordinator: a call to synchronizedRefreshCache, or
the settlement of the in-flight cycle (the .finally callback that
resets refreshCachePromise to null). -/
inductive CoordEvent where
  | trigger
  | settle
deriving DecidableEq, Repr

/-- One coordinator event; triggers yield the observed cycle id. -/
def coordStep (s : CoordState) : CoordEvent → CoordState × Option Nat
  | .trigger =>
    match synchronizedRefreshCache s with
    | (s1, c) => (s1, some c)
  | .settle => (⟨none, s.nextId, s.started⟩, none)

/-- Run a sequence of coordinator events, collecting the cycle ids
observed by the triggers in order. -/
def coordRun : CoordState → List CoordEvent → CoordState × List Nat
  | s, [] => (s, [])
  | s, e :: es =>
    match coordStep s e with
    | (s1, o) =>
      match coordRun s1 es with
      | (s2, os) => (s2, o.toList ++ os)

/-! ### The manifest parser -/

/-- The two-space delimiter of a manifest line. -/
def twoSpaces : List Char := [' ', ' ']

/-- Scan for the first occurrence of pat, carrying the current index. -/
def jsIndexOfAux (pat : List Char) : List Char → Nat → Option Nat
  | [], i => if pat.isPrefixOf ([] : List Char) then some i else none
  | c :: rest, i =>
    if pat.isPrefixOf (c :: rest) then some i else jsIndexOfAux pat rest (i + 1)

/-- line.indexOf(pat): index of the first occurrence (none for the
JavaScript -1 result). -/
def jsIndexOf (pat s : List Char) : Option Nat :=
  jsIndexOfAux pat s 0

/-- str.replaceAll(pat, rep) for a non-empty pattern: replace each
leftmost, non-overlapping occurrence and continue scanning after the
replacement. -/
def replaceAll (pat rep : List Char) : List Char → List Char
  | [] => []
  | c :: rest =>
    if pat ≠ [] ∧ pat.isPrefixOf (c :: rest) then
      rep ++ replaceAll pat rep ((c :: rest).drop pat.length)
    else
      c :: replaceAll pat rep rest
termination_by l => l.length
decreasing_by
  · rename_i h
    simp only [List.length_drop, List.length_cons]
    have hp : 0 < pat.length := List.length_pos.mpr h.1
    have hle : pat.length ≤ rest.length + 1 := by
      simpa using (List.isPrefixOf_iff_prefix.mp h.2).length_le
    omega
  · simp only [List.length_cons]
    omega

/-- The trailing path normalization: if (!path.startsWith('./'))
path = './' + path. -/
def dotSlashNorm (p : List Char) : List Char :=
  if ['.', '/'].isPrefixOf p then p else '.' :: '/' :: p

/-- The tail of parseAssetIndexEntry once hash and path segments are
split off: a leading backslash on the line (line.charAt(0) === '\\')
drops itself from the hash and un-escapes the path, replacing '\n'
sequences by newline characters first and '\\' sequences by single
backslashes second; finally the path is './'-normalized. -/
def parseSplit (line hash path : List Char) : List Char × List Char :=
  if line.head? = some '\\' then
    (hash.drop 1,
     dotSlashNorm (replaceAll ['\\', '\\'] ['\\'] (replaceAll ['\\', 'n'] ['\n'] path)))
  else (hash, dotSlashNorm path)

/-- parseAssetIndexEntry(line) over the character list of the line.
delimiterIndex = line.indexOf('  '); hash = line.slice(0,
delimiterIndex), path = line.slice(delimiterIndex + 2); for the
JavaScript -1 result these slices are line.slice(0, -1) = all but the
last character and line.slice(1) = all but the first. -/
def parseAssetIndexEntryCh (line : List Char) : List Char × List Char :=
  match jsIndexOf twoSpaces line with
  | some delimiterIndex =>
    parseSplit line (line.take delimiterIndex) (line.drop (delimiterIndex + 2))
  | none =>
    parseSplit line (line.take (line.length - 1)) (line.drop 1)

/-- parseAssetIndexEntry(line): { hash, path }. -/
def parseAssetIndexEntry (line : String) : AssetEntry :=
  match parseAssetIndexEntryCh line.data with
  | (h, p) => ⟨String.mk h, String.mk p⟩

/-- A state is converged for a manifest: every manifest entry has an
index record carrying exactly its digest, the sentinel records the
manifest digest and Last-Modified value, every index record is the
sentinel or belongs to a manifest entry, the cache holds a body for
every manifest path and for nothing else, and every manifest path is
'./'-prefixed (as the parser guarantees). -/
def Converged (ai : AssetIndex) (s : SWState) : Prop :=
  (∀ e ∈ ai.entries, idxGet s.idx e.path = some ⟨e.path, e.hash, none⟩) ∧
  idxGet s.idx IDB_KEY_OFFLINE_INDEX =
    some ⟨IDB_KEY_OFFLINE_INDEX, ai.hash, ai.lastModified⟩ ∧
  (∀ r ∈ s.idx, r.path = IDB_KEY_OFFLINE_INDEX ∨
    r.path ∈ ai.entries.map (fun e => e.path)) ∧
  (∀ e ∈ ai.entries, (cacheGet s.cache (resolvePath e.path)).isSome = true) ∧
  (∀ k ∈ s.cache.map (fun kv => kv.1),
    k ∈ ai.entries.map (fun e => resolvePath e.path)) ∧
  (∀ e ∈ ai.entries, startsWithDotSlash e.path = true)

instance (ai : AssetIndex) (s : SWState) : Decidable (Converged ai s) := by
  unfold Converged
  infer_instance

/-! ### Lemmas about the store operations -/

theorem idxGet_idxPut (l : IdxStore) (r : IndexRecord) (q : String) :
    idxGet (idxPut l r) q = if r.path = q then some r else idxGet l q := by
  induction l with
  | nil => simp [idxPut, idxGet]
  | cons x rest ih =>
    by_cases hx : x.path = r.path
    · simp only [idxPut, if_pos hx, idxGet]
      split_ifs with h1 h2 <;> simp_all
    · simp only [idxPut, if_neg hx, idxGet, ih]
      split_ifs with h1 h2 <;> simp_all

theorem idxGet_idxDelete (l : IdxStore) (p q : String) :
    idxGet (idxDelete l p) q = if p = q then none else idxGet l q := by
  induction l with
  | nil => simp [idxDelete, idxGet]
  | cons x rest ih =>
    by_cases hx : x.path = p
    · simp only [idxDelete, if_pos hx, idxGet, ih]
      split_ifs <;> simp_all
    · simp only [idxDelete, if_neg hx, idxGet, ih]
      split_ifs <;> simp_all

theorem idxGet_append (l1 l2 : IdxStore) (q : String) :
    idxGet (l1 ++ l2) q = (idxGet l1 q).or (idxGet l2 q) := by
  induction l1 with
  | nil => simp [idxGet]
  | cons x rest ih =>
    simp only [List.cons_append, idxGet]
    split_ifs <;> simp [ih]

theorem idxGet_eq_none_iff (l : IdxStore) (q : String) :
    idxGet l q = none ↔ q ∉ l.map (fun r => r.path) := by
  induction l with
  | nil => simp [idxGet]
  | cons x rest ih =>
    simp only [idxGet, List.map_cons, List.mem_cons]
    split_ifs with h <;> simp_all [eq_comm]

theorem idxGet_some_path (l : IdxStore) (q : String) (r : IndexRecord)
    (h : idxGet l q = some r) : r.path = q ∧ r ∈ l := by
  induction l with
  | nil => simp [idxGet] at h
  | cons x rest ih =>
    simp only [idxGet] at h
    split_ifs at h with hx
    · cases h
      exact ⟨hx, List.mem_cons_self _ _⟩
    · exact ⟨(ih h).1, List.mem_cons_of_mem _ (ih h).2⟩

theorem idxPut_of_get_none (l : IdxStore) (r : IndexRecord)
    (h : idxGet l r.path = none) : idxPut l r = l ++ [r] := by
  induction l with
  | nil => rfl
  | cons x rest ih =>
    simp only [idxGet] at h
    split_ifs at h with hx
    · simp only [idxPut, if_neg hx, List.cons_append, ih h]

theorem idxDelete_of_get_none (l : IdxStore) (p : String)
    (h : idxGet l p = none) : idxDelete l p = l := by
  induction l with
  | nil => rfl
  | cons x rest ih =>
    simp only [idxGet] at h
    split_ifs at h with hx
    · simp only [idxDelete, if_neg hx, ih h]

theorem cacheGet_cachePut (c : BlobCache) (k v : String) (q : String) :
    cacheGet (cachePut c k v) q = if k = q then some v else cacheGet c q := by
  induction c with
  | nil => simp [cachePut, cacheGet]
  | cons kv rest ih =>
    by_cases hk : kv.1 = k
    · simp only [cachePut, if_pos hk, cacheGet]
      split_ifs <;> simp_all
    · simp only [cachePut, if_neg hk, cacheGet, ih]
      split_ifs <;> simp_all

theorem cacheGet_cacheDelete (c : BlobCache) (k q : String) :
    cacheGet (cacheDelete c k) q = if k = q then none else cacheGet c q := by
  induction c with
  | nil => simp [cacheDelete, cacheGet]
  | cons kv rest ih =>
    by_cases hk : kv.1 = k
    · simp only [cacheDelete, if_pos hk, cacheGet, ih]
      split_ifs <;> simp_all
    · simp only [cacheDelete, if_neg hk, cacheGet, ih]
      split_ifs <;> simp_all

theorem cacheGet_append (c1 c2 : BlobCache) (q : String) :
    cacheGet (c1 ++ c2) q = (cacheGet c1 q).or (cacheGet c2 q) := by
  induction c1 with
  | nil => simp [cacheGet]
  | cons kv rest ih =>
    simp only [List.cons_append, cacheGet]
    split_ifs <;> simp [ih]

theorem cacheGet_eq_none_iff (c : BlobCache) (q : String) :
    cacheGet c q = none ↔ q ∉ c.map (fun kv => kv.1) := by
  induction c with
  | nil => simp [cacheGet]
  | cons kv rest ih =>
    simp only [cacheGet, List.map_cons, List.mem_cons]
    split_ifs with h <;> simp_all [eq_comm]

theorem cachePut_of_get_none (c : BlobCache) (k v : String)
    (h : cacheGet c k = none) : cachePut c k v = c ++ [(k, v)] := by
  induction c with
  | nil => rfl
  | cons kv rest ih =>
    simp only [cacheGet] at h
    split_ifs at h with hk
    · simp only [cachePut, if_neg hk, List.cons_append, ih h]

/-! ### Lemmas about the refresh passes -/

theorem pruneStep_cache (env : Env) (st : SWState) (p : String) :
    (pruneStep env st p).cache = st.cache := by
  unfold pruneStep
  split_ifs <;> rfl

theorem pruneStaleIndex_cache (env : Env) (prev : List String) (s : SWState) :
    (pruneStaleIndex env prev s).cache = s.cache := by
  induction prev generalizing s with
  | nil => rfl
  | cons p rest ih =>
    show (pruneStaleIndex env rest (pruneStep env s p)).cache = s.cache
    rw [ih, pruneStep_cache]

theorem idxGet_pruneStaleIndex (env : Env) (prev : List String) (s : SWState)
    (q : String) :
    idxGet (pruneStaleIndex env prev s).idx q =
      if q ∈ prev ∧ (cacheGet s.cache (resolvePath q)).isSome = false ∧
          env.deleteFails q = false
      then none else idxGet s.idx q := by
  induction prev generalizing s with
  | nil => simp [pruneStaleIndex]
  | cons p rest ih =>
    show idxGet (pruneStaleIndex env rest (pruneStep env s p)).idx q = _
    rw [ih, pruneStep_cache]
    unfold pruneStep
    by_cases hq : q = p
    · subst hq
      split_ifs with h1 h2 h3 h4 h5 h6 h7 <;>
        simp_all [idxGet_idxDelete]
    · split_ifs with h1 h2 h3 h4 h5 h6 h7 <;>
        simp_all [idxGet_idxDelete, Ne.symm hq]

theorem evictIndexStep_cache (env : Env) (known : List String) (st : SWState)
    (p : String) : (evictIndexStep env known st p).cache = st.cache := by
  unfold evictIndexStep
  split_ifs <;> rfl

theorem evictIndex_cache (env : Env) (prev known : List String) (s : SWState) :
    (evictIndex env prev known s).cache = s.cache := by
  induction prev generalizing s with
  | nil => rfl
  | cons p rest ih =>
    show (evictIndex env rest known (evictIndexStep env known s p)).cache = s.cache
    rw [ih, evictIndexStep_cache]

theorem idxGet_evictIndex (env : Env) (prev known : List String) (s : SWState)
    (q : String) :
    idxGet (evictIndex env prev known s).idx q =
      if q ∈ prev ∧ known.contains q = false ∧ env.deleteFails q = false
      then none else idxGet s.idx q := by
  induction prev generalizing s with
  | nil => simp [evictIndex]
  | cons p rest ih =>
    show idxGet (evictIndex env rest known (evictIndexStep env known s p)).idx q = _
    rw [ih]
    unfold evictIndexStep
    by_cases hq : q = p
    · subst hq
      split_ifs with h1 h2 h3 h4 h5 h6 h7 <;>
        simp_all [idxGet_idxDelete]
    · split_ifs with h1 h2 h3 h4 h5 h6 h7 <;>
        simp_all [idxGet_idxDelete, Ne.symm hq]

theorem evictCacheStep_idx (known : List String) (st : SWState) (k : String) :
    (evictCacheStep known st k).idx = st.idx := by
  unfold evictCacheStep
  split_ifs <;> rfl

theorem evictCacheAux_idx (known : List String) (ks : List String) (st : SWState) :
    (ks.foldl (evictCacheStep known) st).idx = st.idx := by
  induction ks generalizing st with
  | nil => rfl
  | cons k rest ih =>
    show (rest.foldl (evictCacheStep known) (evictCacheStep known st k)).idx = st.idx
    rw [ih, evictCacheStep_idx]

theorem evictCache_idx (known : List String) (s : SWState) :
    (evictCache known s).idx = s.idx :=
  evictCacheAux_idx known _ s

theorem evictCacheAux_id (known : List String) (ks : List String) (st : SWState)
    (h : ∀ k ∈ ks, known.contains (derivedPath k) = true) :
    ks.foldl (evictCacheStep known) st = st := by
  induction ks generalizing st with
  | nil => rfl
  | cons k rest ih =>
    show rest.foldl (evictCacheStep known) (evictCacheStep known st k) = st
    rw [evictCacheStep, if_pos (h k (List.mem_cons_self _ _))]
    exact ih st (fun k hk => h k (List.mem_cons_of_mem _ hk))

theorem evictCache_id (known : List String) (s : SWState)
    (h : ∀ k ∈ s.cache.map (fun kv => kv.1), known.contains (derivedPath k) = true) :
    evictCache known s = s :=
  evictCacheAux_id known _ s h

theorem updateFold_shift (env : Env) (entries : List AssetEntry) :
    ∀ (s : SWState) (n : Nat) (f : Bool),
      entries.foldl (updateFold env) (s, n, f) =
        ((entries.foldl (updateFold env) (s, 0, false)).1,
         n + (entries.foldl (updateFold env) (s, 0, false)).2.1,
         f || (entries.foldl (updateFold env) (s, 0, false)).2.2) := by
  induction entries with
  | nil => simp
  | cons e rest ih =>
    intro s n f
    show rest.foldl (updateFold env) (updateFold env (s, n, f) e) = _
    rcases h : updateOfflineAsset env e s with ⟨s1, n1, f1⟩
    have hb : ∀ (n0 : Nat) (f0 : Bool),
        updateFold env (s, n0, f0) e = (s1, n0 + n1, f0 || f1) := by
      intro n0 f0
      simp [updateFold, h]
    rw [hb n f]
    rw [ih s1 (n + n1) (f || f1)]
    conv_rhs =>
      rw [show (e :: rest).foldl (updateFold env) (s, 0, false) =
        rest.foldl (updateFold env) (updateFold env (s, 0, false) e) from rfl]
    rw [hb 0 false]
    rw [ih s1 (0 + n1) (false || f1)]
    simp [Nat.add_assoc, Bool.or_assoc]

theorem updateAllAssets_skip (env : Env) (entries : List AssetEntry) (s : SWState)
    (h : ∀ e ∈ entries, ∃ r, idxGet s.idx e.path = some r ∧ r.hash = e.hash) :
    updateAllAssets env entries s = (s, 0, false) := by
  induction entries with
  | nil => rfl
  | cons e rest ih =>
    obtain ⟨r, hg, hh⟩ := h e (List.mem_cons_self _ _)
    show rest.foldl (updateFold env) (updateFold env (s, 0, false) e) = (s, 0, false)
    have hu : updateOfflineAsset env e s = (s, 0, false) := by
      simp [updateOfflineAsset, hg, hh]
    have hf : updateFold env (s, 0, false) e = (s, 0, false) := by
      simp [updateFold, hu]
    rw [hf]
    exact ih (fun e he => h e (List.mem_cons_of_mem _ he))

theorem updateAllAssets_fresh (env : Env) (entries : List AssetEntry) (s : SWState)
    (bodyFn : AssetEntry → String)
    (hg : ∀ e ∈ entries, idxGet s.idx e.path = none)
    (hc : ∀ e ∈ entries, cacheGet s.cache (resolvePath e.path) = none)
    (hn : ∀ e ∈ entries, env.net e.path = some (bodyFn e))
    (hp : ∀ e ∈ entries, env.putFails e.path = false)
    (hnd : (entries.map (fun e => e.path)).Nodup)
    (hrd : (entries.map (fun e => resolvePath e.path)).Nodup) :
    updateAllAssets env entries s =
      (⟨s.idx ++ entries.map (fun e => ⟨e.path, e.hash, none⟩),
        s.cache ++ entries.map (fun e => (resolvePath e.path, bodyFn e))⟩,
       entries.length, false) := by
  induction entries generalizing s with
  | nil => simp [updateAllAssets]
  | cons e rest ih =>
    rw [List.map_cons, List.nodup_cons] at hnd hrd
    have hge := hg e (List.mem_cons_self _ _)
    have hce := hc e (List.mem_cons_self _ _)
    have hne := hn e (List.mem_cons_self _ _)
    have hpe := hp e (List.mem_cons_self _ _)
    have hu : updateOfflineAsset env e s =
        (⟨s.idx ++ [⟨e.path, e.hash, none⟩],
          s.cache ++ [(resolvePath e.path, bodyFn e)]⟩, 1, false) := by
      simp only [updateOfflineAsset, hge, updateOfflineAssetFetch, hne, hpe,
        if_neg Bool.false_ne_true]
      rw [cachePut_of_get_none s.cache _ _ hce]
      have hput : idxGet s.idx (IndexRecord.mk e.path e.hash none).path = none := hge
      rw [idxPut_of_get_none _ _ hput]
    show rest.foldl (updateFold env) (updateFold env (s, 0, false) e) = _
    have hf : updateFold env (s, 0, false) e =
        (⟨s.idx ++ [⟨e.path, e.hash, none⟩],
          s.cache ++ [(resolvePath e.path, bodyFn e)]⟩, 1, false) := by
      simp [updateFold, hu]
    rw [hf]
    set s2 : SWState := ⟨s.idx ++ [⟨e.path, e.hash, none⟩],
      s.cache ++ [(resolvePath e.path, bodyFn e)]⟩ with hs2
    have hepath : e.path ∉ rest.map (fun e => e.path) := hnd.1
    have herespath : resolvePath e.path ∉ rest.map (fun e => resolvePath e.path) :=
      hrd.1
    have hg2 : ∀ e2 ∈ rest, idxGet s2.idx e2.path = none := by
      intro e2 he2
      rw [hs2]
      show idxGet (s.idx ++ [⟨e.path, e.hash, none⟩]) e2.path = none
      rw [idxGet_append, hg e2 (List.mem_cons_of_mem _ he2)]
      have hne2 : e.path ≠ e2.path := by
        intro hcontra
        exact hepath (hcontra ▸ List.mem_map_of_mem (fun e => e.path) he2)
      simp [idxGet, hne2]
    have hc2 : ∀ e2 ∈ rest, cacheGet s2.cache (resolvePath e2.path) = none := by
      intro e2 he2
      rw [hs2]
      show cacheGet (s.cache ++ [(resolvePath e.path, bodyFn e)]) (resolvePath e2.path) = none
      rw [cacheGet_append, hc e2 (List.mem_cons_of_mem _ he2)]
      have hne2 : resolvePath e.path ≠ resolvePath e2.path := by
        intro hcontra
        exact herespath
          (hcontra ▸ List.mem_map_of_mem (fun e => resolvePath e.path) he2)
      simp [cacheGet, hne2]
    rw [updateFold_shift]
    have ihh := ih s2 hg2 hc2 (fun e2 he2 => hn e2 (List.mem_cons_of_mem _ he2))
      (fun e2 he2 => hp e2 (List.mem_cons_of_mem _ he2)) hnd.2 hrd.2
    unfold updateAllAssets at ihh
    rw [ihh]
    simp [hs2, List.append_assoc, Nat.add_comm]

/-! ### Lemmas about paths -/

theorem String_mk_data (s : String) : String.mk s.data = s := by
  cases s
  rfl

theorem startsWithDotSlash_iff (p : String) :
    startsWithDotSlash p = true ↔ ∃ t, p.data = '.' :: '/' :: t := by
  unfold startsWithDotSlash
  rw [List.isPrefixOf_iff_prefix]
  constructor
  · rintro ⟨t, ht⟩
    exact ⟨t, ht.symm⟩
  · rintro ⟨t, ht⟩
    exact ⟨t, ht.symm⟩

theorem resolvePath_of_data (p : String) (t : List Char)
    (h : p.data = '.' :: '/' :: t) : resolvePath p = String.mk t := by
  unfold resolvePath
  rw [if_pos ((startsWithDotSlash_iff p).mpr ⟨t, h⟩), h]
  rfl

theorem derivedPath_resolvePath (p : String) (h : startsWithDotSlash p = true) :
    derivedPath (resolvePath p) = p := by
  obtain ⟨t, ht⟩ := (startsWithDotSlash_iff p).mp h
  rw [resolvePath_of_data p t ht]
  unfold derivedPath
  rw [show (String.mk t).data = t from rfl, ← ht, String_mk_data]

theorem resolvePath_injOn (p q : String) (hp : startsWithDotSlash p = true)
    (hq : startsWithDotSlash q = true) (h : resolvePath p = resolvePath q) :
    p = q := by
  have := congrArg derivedPath h
  rwa [derivedPath_resolvePath p hp, derivedPath_resolvePath q hq] at this

theorem sentinel_not_dotSlash : startsWithDotSlash IDB_KEY_OFFLINE_INDEX = false := by
  decide

theorem ne_sentinel_of_dotSlash (p : String) (h : startsWithDotSlash p = true) :
    p ≠ IDB_KEY_OFFLINE_INDEX := by
  intro hcontra
  rw [hcontra, sentinel_not_dotSlash] at h
  exact Bool.false_ne_true h

theorem resolvePath_sentinel : resolvePath IDB_KEY_OFFLINE_INDEX = IDB_KEY_OFFLINE_INDEX := by
  unfold resolvePath
  rw [sentinel_not_dotSlash]
  rfl

/-! ### Lemmas about refreshCache as a whole -/

theorem refreshCache_success (env : Env) (ai : AssetIndex) (s0 s2 : SWState)
    (fetches : Nat) (hrk : env.readKeysFails = false)
    (hup : updateAllAssets env ai.entries
      (pruneStaleIndex env (s0.idx.map (fun r => r.path)) s0) = (s2, fetches, false))
    (hps : env.putFails IDB_KEY_OFFLINE_INDEX = false) :
    refreshCache env (some ai) s0 =
      .done
        { evictCache (ai.entries.map (fun e => e.path))
            (evictIndex env (s0.idx.map (fun r => r.path))
              (ai.entries.map (fun e => e.path)) s2) with
          idx := idxPut
            (evictCache (ai.entries.map (fun e => e.path))
              (evictIndex env (s0.idx.map (fun r => r.path))
                (ai.entries.map (fun e => e.path)) s2)).idx
            ⟨IDB_KEY_OFFLINE_INDEX, ai.hash, ai.lastModified⟩ }
        fetches := by
  unfold refreshCache
  rw [hrk]
  simp only [Bool.false_eq_true, if_false, hup, hps]

theorem refreshCache_rejected (env : Env) (ai : AssetIndex) (s0 s2 : SWState)
    (fetches : Nat) (hrk : env.readKeysFails = false)
    (hup : updateAllAssets env ai.entries
      (pruneStaleIndex env (s0.idx.map (fun r => r.path)) s0) = (s2, fetches, true)) :
    refreshCache env (some ai) s0 = .rejected s2 fetches := by
  unfold refreshCache
  rw [hrk]
  simp only [Bool.false_eq_true, if_false, hup, if_true]

/-- A full refresh cycle against a manifest with fresh, distinct,
'./'-prefixed entry paths starting from the empty index and empty cache:
every entry is fetched and recorded, then the sentinel is appended. -/
theorem refreshCache_fresh (env : Env) (ai : AssetIndex)
    (bodyFn : AssetEntry → String)
    (hrk : env.readKeysFails = false)
    (hn : ∀ e ∈ ai.entries, env.net e.path = some (bodyFn e))
    (hp : ∀ e ∈ ai.entries, env.putFails e.path = false)
    (hps : env.putFails IDB_KEY_OFFLINE_INDEX = false)
    (hnd : (ai.entries.map (fun e => e.path)).Nodup)
    (hds : ∀ e ∈ ai.entries, startsWithDotSlash e.path = true) :
    refreshCache env (some ai) ⟨[], []⟩ =
      .done
        ⟨ai.entries.map (fun e => ⟨e.path, e.hash, none⟩) ++
           [⟨IDB_KEY_OFFLINE_INDEX, ai.hash, ai.lastModified⟩],
         ai.entries.map (fun e => (resolvePath e.path, bodyFn e))⟩
        ai.entries.length := by
  have hrd : (ai.entries.map (fun e => resolvePath e.path)).Nodup := by
    have hinj : ∀ x ∈ ai.entries.map (fun e => e.path),
        ∀ y ∈ ai.entries.map (fun e => e.path),
        resolvePath x = resolvePath y → x = y := by
      intro x hx y hy hxy
      simp only [List.mem_map] at hx hy
      obtain ⟨ex, hex, hexp⟩ := hx
      obtain ⟨ey, hey, heyp⟩ := hy
      exact resolvePath_injOn x y (hexp ▸ hds ex hex) (heyp ▸ hds ey hey) hxy
    have := List.Nodup.map_on hinj hnd
    simpa [List.map_map, Function.comp] using this
  have hup := updateAllAssets_fresh env ai.entries ⟨[], []⟩ bodyFn
    (fun e _ => rfl) (fun e _ => rfl) hn hp hnd hrd
  simp only [List.nil_append] at hup
  have hprev : (⟨[], []⟩ : SWState).idx.map (fun r => r.path) = [] := rfl
  have hprune : pruneStaleIndex env [] ⟨[], []⟩ = ⟨[], []⟩ := rfl
  rw [refreshCache_success env ai ⟨[], []⟩
    ⟨ai.entries.map (fun e => ⟨e.path, e.hash, none⟩),
     ai.entries.map (fun e => (resolvePath e.path, bodyFn e))⟩
    ai.entries.length hrk (by rw [hprev, hprune]; exact hup) hps]
  rw [hprev]
  have hevictIdx : evictIndex env [] (ai.entries.map (fun e => e.path))
      ⟨ai.entries.map (fun e => ⟨e.path, e.hash, none⟩),
       ai.entries.map (fun e => (resolvePath e.path, bodyFn e))⟩ =
      ⟨ai.entries.map (fun e => ⟨e.path, e.hash, none⟩),
       ai.entries.map (fun e => (resolvePath e.path, bodyFn e))⟩ := rfl
  rw [hevictIdx]
  have hevictCache : evictCache (ai.entries.map (fun e => e.path))
      ⟨ai.entries.map (fun e => ⟨e.path, e.hash, none⟩),
       ai.entries.map (fun e => (resolvePath e.path, bodyFn e))⟩ =
      ⟨ai.entries.map (fun e => ⟨e.path, e.hash, none⟩),
       ai.entries.map (fun e => (resolvePath e.path, bodyFn e))⟩ := by
    apply evictCache_id
    intro k hk
    simp only [List.map_map, List.mem_map, Function.comp] at hk
    obtain ⟨e, he, hek⟩ := hk
    rw [← hek, derivedPath_resolvePath e.path (hds e he), List.elem_iff]
    exact List.mem_map_of_mem (fun e => e.path) he
  rw [hevictCache]
  have hsent : idxGet (ai.entries.map (fun e => ⟨e.path, e.hash, none⟩))
      IDB_KEY_OFFLINE_INDEX = none := by
    rw [idxGet_eq_none_iff]
    simp only [List.map_map, List.mem_map, Function.comp, not_exists]
    intro e
    rintro ⟨he, habs⟩
    exact ne_sentinel_of_dotSlash e.path (hds e he) habs
  rw [show (idxPut (ai.entries.map (fun e => ⟨e.path, e.hash, none⟩))
      ⟨IDB_KEY_OFFLINE_INDEX, ai.hash, ai.lastModified⟩) =
      ai.entries.map (fun e => ⟨e.path, e.hash, none⟩) ++
        [⟨IDB_KEY_OFFLINE_INDEX, ai.hash, ai.lastModified⟩] from
    idxPut_of_get_none _ _ hsent]

/-! ### Lemmas about the manifest parser -/

theorem jsIndexOfAux_first (pre rest : List Char) (i : Nat)
    (h : ∀ c ∈ pre, c ≠ ' ') :
    jsIndexOfAux twoSpaces (pre ++ ' ' :: ' ' :: rest) i = some (i + pre.length) := by
  induction pre generalizing i with
  | nil =>
    show jsIndexOfAux twoSpaces (' ' :: ' ' :: rest) i = some (i + 0)
    unfold jsIndexOfAux
    rw [if_pos (by simp [twoSpaces, List.isPrefixOf])]
    simp
  | cons c pre ih =>
    have hc : c ≠ ' ' := h c (List.mem_cons_self _ _)
    show jsIndexOfAux twoSpaces (c :: (pre ++ ' ' :: ' ' :: rest)) i = _
    unfold jsIndexOfAux
    rw [if_neg (by simp [twoSpaces, List.isPrefixOf, Ne.symm hc])]
    rw [ih (i + 1) (fun c2 hc2 => h c2 (List.mem_cons_of_mem _ hc2))]
    simp only [List.length_cons]
    congr 1
    omega

theorem jsIndexOf_escaped_line (d raw : List Char) (h : ∀ c ∈ d, c ≠ ' ') :
    jsIndexOf twoSpaces ('\\' :: (d ++ ' ' :: ' ' :: raw)) = some (d.length + 1) := by
  show jsIndexOfAux twoSpaces (('\\' :: d) ++ ' ' :: ' ' :: raw) 0 = _
  rw [jsIndexOfAux_first ('\\' :: d) raw 0 (by
    intro c hc
    rcases List.mem_cons.mp hc with h1 | h1
    · subst h1
      decide
    · exact h c h1)]
  simp [Nat.add_comm]

theorem parseCh_escaped (d raw : List Char) (h : ∀ c ∈ d, c ≠ ' ') :
    parseAssetIndexEntryCh ('\\' :: (d ++ ' ' :: ' ' :: raw)) =
      (d, dotSlashNorm (replaceAll ['\\', '\\'] ['\\']
        (replaceAll ['\\', 'n'] ['\n'] raw))) := by
  unfold parseAssetIndexEntryCh
  rw [jsIndexOf_escaped_line d raw h]
  have htake : ('\\' :: (d ++ ' ' :: ' ' :: raw)).take (d.length + 1) = '\\' :: d := by
    rw [show '\\' :: (d ++ ' ' :: ' ' :: raw) = ('\\' :: d) ++ (' ' :: ' ' :: raw)
      from rfl]
    exact List.take_left' (by simp)
  have hdrop : ('\\' :: (d ++ ' ' :: ' ' :: raw)).drop (d.length + 1 + 2) = raw := by
    rw [show '\\' :: (d ++ ' ' :: ' ' :: raw) = ('\\' :: d ++ [' ', ' ']) ++ raw
      by simp]
    exact List.drop_left' (by simp)
  show parseSplit ('\\' :: (d ++ ' ' :: ' ' :: raw))
    (('\\' :: (d ++ ' ' :: ' ' :: raw)).take (d.length + 1))
    (('\\' :: (d ++ ' ' :: ' ' :: raw)).drop (d.length + 1 + 2)) = _
  rw [htake, hdrop]
  unfold parseSplit
  simp

theorem replaceAll_nil (pat rep : List Char) : replaceAll pat rep [] = [] := by
  simp [replaceAll]

theorem replaceAll_cons (pat rep : List Char) (c : Char) (rest : List Char) :
    replaceAll pat rep (c :: rest) =
      if pat ≠ [] ∧ pat.isPrefixOf (c :: rest) then
        rep ++ replaceAll pat rep ((c :: rest).drop pat.length)
      else c :: replaceAll pat rep rest := by
  rw [replaceAll]

theorem replaceAll_ne_nil (pat rep : List Char) (hrep : rep ≠ []) (a : List Char)
    (ha : a ≠ []) : replaceAll pat rep a ≠ [] := by
  cases a with
  | nil => exact absurd rfl ha
  | cons c rest =>
    rw [replaceAll_cons]
    split_ifs
    · simp [hrep]
    · simp

theorem getLast?_drop_of_ne_nil (l : List Char) (k : Nat) (h : l.drop k ≠ []) :
    (l.drop k).getLast? = l.getLast? := by
  conv_rhs => rw [← List.take_append_drop k l]
  rw [List.getLast?_append_of_ne_nil _ h]

theorem replaceAll_getLast (pat rep : List Char) (hrep : rep ≠ []) :
    ∀ (n : Nat) (a : List Char), a.length ≤ n →
      (replaceAll pat rep a).getLast? = a.getLast? ∨
      (replaceAll pat rep a).getLast? = rep.getLast? := by
  intro n
  induction n with
  | zero =>
    intro a ha
    rw [List.length_eq_zero.mp (Nat.le_zero.mp ha)]
    exact Or.inl (by rw [replaceAll_nil])
  | succ n ih =>
    intro a ha
    cases a with
    | nil => exact Or.inl (by rw [replaceAll_nil])
    | cons c rest =>
      rw [replaceAll_cons]
      split_ifs with hm
      · by_cases hdropnil : (c :: rest).drop pat.length = []
        · rw [hdropnil, replaceAll_nil, List.append_nil]
          exact Or.inr rfl
        · have hR : replaceAll pat rep ((c :: rest).drop pat.length) ≠ [] :=
            replaceAll_ne_nil pat rep hrep _ hdropnil
          rw [List.getLast?_append_of_ne_nil _ hR]
          have hlen : ((c :: rest).drop pat.length).length ≤ n := by
            have hp : 0 < pat.length := List.length_pos.mpr hm.1
            simp only [List.length_drop, List.length_cons]
            simp only [List.length_cons] at ha
            omega
          rcases ih _ hlen with h1 | h1
          · rw [h1, getLast?_drop_of_ne_nil _ _ hdropnil]
            exact Or.inl rfl
          · exact Or.inr h1
      · by_cases hrest : rest = []
        · subst hrest
          rw [replaceAll_nil]
          exact Or.inl rfl
        · have hR : replaceAll pat rep rest ≠ [] :=
            replaceAll_ne_nil pat rep hrep rest hrest
          rw [show c :: replaceAll pat rep rest = [c] ++ replaceAll pat rep rest
            from rfl]
          rw [List.getLast?_append_of_ne_nil _ hR]
          rw [show (c :: rest : List Char) = [c] ++ rest from rfl,
            List.getLast?_append_of_ne_nil _ hrest]
          have hlen : rest.length ≤ n := by
            simp only [List.length_cons] at ha
            omega
          exact ih rest hlen

theorem replaceAll_bsn_append :
    ∀ (n : Nat) (a b : List Char), a.length ≤ n → b.head? ≠ some 'n' →
      replaceAll ['\\', 'n'] ['\n'] (a ++ b) =
        replaceAll ['\\', 'n'] ['\n'] a ++ replaceAll ['\\', 'n'] ['\n'] b := by
  intro n
  induction n with
  | zero =>
    intro a b ha hb
    rw [List.length_eq_zero.mp (Nat.le_zero.mp ha)]
    simp [replaceAll_nil]
  | succ n ih =>
    intro a b ha hb
    cases a with
    | nil => simp [replaceAll_nil]
    | cons c rest =>
      by_cases hm : (['\\', 'n'] : List Char).isPrefixOf (c :: rest)
      · obtain ⟨t, ht⟩ := List.isPrefixOf_iff_prefix.mp hm
        rw [show ((['\\', 'n'] : List Char) ++ t = '\\' :: 'n' :: t) from rfl] at ht
        obtain ⟨hc, hrest⟩ : c = '\\' ∧ rest = 'n' :: t := by
          injection ht.symm with h1 h2
          exact ⟨h1, h2⟩
        subst hc
        subst hrest
        rw [show ('\\' :: 'n' :: t) ++ b = '\\' :: 'n' :: (t ++ b) from rfl]
        rw [replaceAll_cons, if_pos ⟨by simp, by simp [List.isPrefixOf]⟩]
        rw [replaceAll_cons, if_pos ⟨by simp, by simp [List.isPrefixOf]⟩]
        have hlen : t.length ≤ n := by
          simp only [List.length_cons] at ha
          omega
        rw [show (('\\' :: 'n' :: (t ++ b)).drop (['\\', 'n'] : List Char).length
          = t ++ b) from rfl]
        rw [show (('\\' :: 'n' :: t).drop (['\\', 'n'] : List Char).length = t)
          from rfl]
        rw [ih t b hlen hb]
        simp
      · have hcomb : ¬(['\\', 'n'] : List Char).isPrefixOf (c :: (rest ++ b)) := by
          intro hcontra
          obtain ⟨t, ht⟩ := List.isPrefixOf_iff_prefix.mp hcontra
          rw [show ((['\\', 'n'] : List Char) ++ t = '\\' :: 'n' :: t) from rfl] at ht
          injection ht with h1 h2
          cases rest with
          | nil =>
            apply hb
            have h2b : b = 'n' :: t := by simpa using h2.symm
            rw [h2b]
            rfl
          | cons r rest2 =>
            injection h2 with h3 h4
            apply hm
            rw [← h1, ← h3]
            simp [List.isPrefixOf]
        rw [show (c :: rest) ++ b = c :: (rest ++ b) from rfl]
        rw [replaceAll_cons, if_neg (by rintro ⟨-, h⟩; exact hcomb h)]
        rw [replaceAll_cons ['\\', 'n'] ['\n'] c rest,
          if_neg (by rintro ⟨-, h⟩; exact hm h)]
        have hlen : rest.length ≤ n := by
          simp only [List.length_cons] at ha
          omega
        rw [ih rest b hlen hb]
        simp

theorem replaceAll_bs2_append :
    ∀ (n : Nat) (a b : List Char), a.length ≤ n →
      (a.getLast? ≠ some '\\' ∨ b.head? ≠ some '\\') →
      replaceAll ['\\', '\\'] ['\\'] (a ++ b) =
        replaceAll ['\\', '\\'] ['\\'] a ++ replaceAll ['\\', '\\'] ['\\'] b := by
  intro n
  induction n with
  | zero =>
    intro a b ha hcond
    rw [List.length_eq_zero.mp (Nat.le_zero.mp ha)]
    simp [replaceAll_nil]
  | succ n ih =>
    intro a b ha hcond
    cases a with
    | nil => simp [replaceAll_nil]
    | cons c rest =>
      by_cases hm : (['\\', '\\'] : List Char).isPrefixOf (c :: rest)
      · obtain ⟨t, ht⟩ := List.isPrefixOf_iff_prefix.mp hm
        rw [show ((['\\', '\\'] : List Char) ++ t = '\\' :: '\\' :: t) from rfl] at ht
        obtain ⟨hc, hrest⟩ : c = '\\' ∧ rest = '\\' :: t := by
          injection ht.symm with h1 h2
          exact ⟨h1, h2⟩
        subst hc
        subst hrest
        rw [show ('\\' :: '\\' :: t) ++ b = '\\' :: '\\' :: (t ++ b) from rfl]
        rw [replaceAll_cons, if_pos ⟨by simp, by simp [List.isPrefixOf]⟩]
        rw [replaceAll_cons, if_pos ⟨by simp, by simp [List.isPrefixOf]⟩]
        have hlen : t.length ≤ n := by
          simp only [List.length_cons] at ha
          omega
        have hcond2 : t.getLast? ≠ some '\\' ∨ b.head? ≠ some '\\' := by
          rcases hcond with h | h
          · left
            intro habs
            apply h
            have htne : t ≠ [] := by
              intro hnil
              subst hnil
              simp at habs
            rw [List.getLast?_cons_cons]
            rw [show ('\\' :: t : List Char) = ['\\'] ++ t from rfl,
              List.getLast?_append_of_ne_nil _ htne]
            exact habs
          · exact Or.inr h
        rw [show (('\\' :: '\\' :: (t ++ b)).drop
          (['\\', '\\'] : List Char).length = t ++ b) from rfl]
        rw [show (('\\' :: '\\' :: t).drop (['\\', '\\'] : List Char).length = t)
          from rfl]
        rw [ih t b hlen hcond2]
        simp
      · have hcomb : ¬(['\\', '\\'] : List Char).isPrefixOf (c :: (rest ++ b)) := by
          intro hcontra
          obtain ⟨t, ht⟩ := List.isPrefixOf_iff_prefix.mp hcontra
          rw [show ((['\\', '\\'] : List Char) ++ t = '\\' :: '\\' :: t) from rfl] at ht
          injection ht with h1 h2
          cases rest with
          | nil =>
            rcases hcond with h | h
            · apply h
              rw [← h1]
              rfl
            · apply h
              have h2b : b = '\\' :: t := by simpa using h2.symm
              rw [h2b]
              rfl
          | cons r rest2 =>
            injection h2 with h3 h4
            apply hm
            rw [← h1, ← h3]
            simp [List.isPrefixOf]
        rw [show (c :: rest) ++ b = c :: (rest ++ b) from rfl]
        rw [replaceAll_cons, if_neg (by rintro ⟨-, h⟩; exact hcomb h)]
        rw [replaceAll_cons ['\\', '\\'] ['\\'] c rest,
          if_neg (by rintro ⟨-, h⟩; exact hm h)]
        have hlen : rest.length ≤ n := by
          simp only [List.length_cons] at ha
          omega
        have hcond2 : rest.getLast? ≠ some '\\' ∨ b.head? ≠ some '\\' := by
          by_cases hrest : rest = []
          · subst hrest
            left
            simp
          · rcases hcond with h | h
            · left
              intro habs
              apply h
              rw [show (c :: rest : List Char) = [c] ++ rest from rfl,
                List.getLast?_append_of_ne_nil _ hrest]
              exact habs
            · exact Or.inr h
        rw [ih rest b hlen hcond2]
        simp

theorem replaceAll_bsn_run (m : Nat) (v : List Char) :
    replaceAll ['\\', 'n'] ['\n'] (List.replicate (m + 1) '\\' ++ 'n' :: v) =
      List.replicate m '\\' ++ '\n' :: replaceAll ['\\', 'n'] ['\n'] v := by
  induction m with
  | zero =>
    rw [show (List.replicate 1 '\\' ++ 'n' :: v = '\\' :: 'n' :: v) from rfl]
    rw [replaceAll_cons, if_pos ⟨by simp, by simp [List.isPrefixOf]⟩]
    rfl
  | succ m ih =>
    rw [show (List.replicate (m + 2) '\\' ++ 'n' :: v =
      '\\' :: (List.replicate (m + 1) '\\' ++ 'n' :: v)) from rfl]
    rw [replaceAll_cons, if_neg ?_]
    · rw [ih]
      rfl
    · rintro ⟨-, hpref⟩
      obtain ⟨t, ht⟩ := List.isPrefixOf_iff_prefix.mp hpref
      rw [show ((['\\', 'n'] : List Char) ++ t = '\\' :: 'n' :: t) from rfl] at ht
      injection ht with h1 h2
      rw [show (List.replicate (m + 1) '\\' ++ 'n' :: v =
        '\\' :: (List.replicate m '\\' ++ 'n' :: v)) from rfl] at h2
      injection h2 with h3 h4
      exact absurd h3 (by decide)

theorem replaceAll_bs2_run :
    ∀ (m : Nat) (w : List Char),
      replaceAll ['\\', '\\'] ['\\'] (List.replicate m '\\' ++ '\n' :: w) =
        List.replicate ((m + 1) / 2) '\\' ++ '\n' ::
          replaceAll ['\\', '\\'] ['\\'] w := by
  intro m
  induction m using Nat.strong_induction_on with
  | _ m ih =>
    intro w
    match m with
    | 0 =>
      rw [show (List.replicate 0 '\\' ++ '\n' :: w = '\n' :: w) from rfl]
      rw [replaceAll_cons, if_neg ?_]
      · rfl
      · rintro ⟨-, hpref⟩
        obtain ⟨t, ht⟩ := List.isPrefixOf_iff_prefix.mp hpref
        rw [show ((['\\', '\\'] : List Char) ++ t = '\\' :: '\\' :: t) from rfl] at ht
        injection ht with h1 h2
        exact absurd h1 (by decide)
    | 1 =>
      rw [show (List.replicate 1 '\\' ++ '\n' :: w = '\\' :: '\n' :: w) from rfl]
      rw [replaceAll_cons, if_neg ?_]
      · rw [replaceAll_cons, if_neg ?_]
        · rfl
        · rintro ⟨-, hpref⟩
          obtain ⟨t, ht⟩ := List.isPrefixOf_iff_prefix.mp hpref
          rw [show ((['\\', '\\'] : List Char) ++ t = '\\' :: '\\' :: t) from rfl] at ht
          injection ht with h1 h2
          exact absurd h1 (by decide)
      · rintro ⟨-, hpref⟩
        obtain ⟨t, ht⟩ := List.isPrefixOf_iff_prefix.mp hpref
        rw [show ((['\\', '\\'] : List Char) ++ t = '\\' :: '\\' :: t) from rfl] at ht
        injection ht with h1 h2
        injection h2 with h3 h4
        exact absurd h3 (by decide)
    | (m + 2) =>
      rw [show (List.replicate (m + 2) '\\' ++ '\n' :: w =
        '\\' :: '\\' :: (List.replicate m '\\' ++ '\n' :: w)) from rfl]
      rw [replaceAll_cons, if_pos ⟨by simp, by simp [List.isPrefixOf]⟩]
      rw [show (('\\' :: '\\' :: (List.replicate m '\\' ++ '\n' :: w)).drop
        (['\\', '\\'] : List Char).length = List.replicate m '\\' ++ '\n' :: w)
        from rfl]
      rw [ih m (by omega) w]
      rw [show (m + 2 + 1) / 2 = (m + 1) / 2 + 1 by omega, List.replicate_succ]
      rfl

theorem bs_run_decomposition (u : List Char) :
    ∃ u2 k, u ++ ['\\', '\\'] = u2 ++ List.replicate k '\\' ∧ 2 ≤ k ∧
      u2.getLast? ≠ some '\\' := by
  induction u using List.reverseRecOn with
  | nil =>
    refine ⟨[], 2, ?_, by omega, by simp⟩
    rfl
  | append_singleton us c ih =>
    by_cases hc : c = '\\'
    · subst hc
      obtain ⟨u2, k, heq, hk, hlast⟩ := ih
      refine ⟨u2, k + 1, ?_, by omega, hlast⟩
      rw [show (us ++ ['\\']) ++ ['\\', '\\'] = (us ++ ['\\', '\\']) ++ ['\\']
        by simp]
      rw [heq, List.replicate_succ' k '\\', ← List.append_assoc]
    · refine ⟨us ++ [c], 2, ?_, by omega, ?_⟩
      · rfl
      · rw [List.getLast?_concat]
        simp [hc]

/-! ### The claims -/

/-- Claim C1: the refresh is single-flight.  While a refresh cycle is
outstanding (the coordinator holds an in-flight handle), any sequence of
synchronizedRefreshCache calls with no intervening settlement leaves the
coordinator state unchanged — in particular no second refresh cycle's
mutations are started — and every caller observes the id (the promise)
of the in-progress cycle. -/
theorem c1_single_flight_refresh (s : CoordState) (c : Nat) (es : List CoordEvent)
    (hin : s.inFlight = some c) (hns : CoordEvent.settle ∉ es) :
    coordRun s es = (s, List.replicate es.length c) := by
  induction es with
  | nil => rfl
  | cons e rest ih =>
    have he : e = .trigger := by
      cases e
      · rfl
      · exact absurd (List.mem_cons_self _ _) hns
    subst he
    have hstep : coordStep s .trigger = (s, some c) := by
      simp [coordStep, synchronizedRefreshCache, hin]
    show (match coordStep s .trigger with
      | (s1, o) =>
        match coordRun s1 rest with
        | (s2, os) => (s2, o.toList ++ os)) = _
    rw [hstep]
    have ih2 := ih (fun h => hns (List.mem_cons_of_mem _ h))
    simp [ih2, List.replicate_succ]

/-- Witness for C1 at a concrete coordinator state and trace. -/
theorem c1_single_flight_refresh_witness :
    coordRun ⟨some 5, 6, [5]⟩ [CoordEvent.trigger, CoordEvent.trigger] =
      (⟨some 5, 6, [5]⟩, [5, 5]) := by
  have h := c1_single_flight_refresh ⟨some 5, 6, [5]⟩ 5
    [CoordEvent.trigger, CoordEvent.trigger] rfl (by decide)
  simpa using h

/-- Claim C2: a request intercepted while a refresh cycle is in flight
(the handle is non-null) is answered by forwarding to the network; the
blob cache is never consulted (the outcome is the same whatever the
stores hold) and no refresh is triggered by the request. -/
theorem c2_inflight_bypasses_cache (c : Nat) (scopePath requestPath : String)
    (env : FetchEnv) (s : SWState) :
    handleFetch (some c) scopePath requestPath env s = ⟨.network, false, false⟩ := by
  unfold handleFetch
  simp

/-- Claim C3: convergence.  For a manifest with two distinct
'./'-prefixed entries A@h1 and B@h2 and initially empty blob cache and
index, a successful refresh cycle leaves the cache containing exactly
the fetched bodies for A and B, the index recording digests h1 for A
and h2 for B and nothing else but the sentinel, whose digest equals the
manifest digest exactly. -/
theorem c3_convergence (A B h1 h2 bA bB mh : String) (mlm : Option String)
    (env : Env) (hAB : A ≠ B)
    (hA : startsWithDotSlash A = true) (hB : startsWithDotSlash B = true)
    (hrk : env.readKeysFails = false)
    (hnA : env.net A = some bA) (hnB : env.net B = some bB)
    (hpA : env.putFails A = false) (hpB : env.putFails B = false)
    (hps : env.putFails IDB_KEY_OFFLINE_INDEX = false) :
    ∃ s', refreshCache env (some ⟨mh, mlm, [⟨h1, A⟩, ⟨h2, B⟩]⟩) ⟨[], []⟩ =
        .done s' 2 ∧
      idxGet s'.idx A = some ⟨A, h1, none⟩ ∧
      idxGet s'.idx B = some ⟨B, h2, none⟩ ∧
      idxGet s'.idx IDB_KEY_OFFLINE_INDEX = some ⟨IDB_KEY_OFFLINE_INDEX, mh, mlm⟩ ∧
      (∀ p, p ≠ A → p ≠ B → p ≠ IDB_KEY_OFFLINE_INDEX → idxGet s'.idx p = none) ∧
      cacheGet s'.cache (resolvePath A) = some bA ∧
      cacheGet s'.cache (resolvePath B) = some bB ∧
      (∀ k, k ≠ resolvePath A → k ≠ resolvePath B → cacheGet s'.cache k = none) := by
  have hBA : ¬(B = A) := fun h => hAB h.symm
  have hAsent : A ≠ IDB_KEY_OFFLINE_INDEX := ne_sentinel_of_dotSlash A hA
  have hBsent : B ≠ IDB_KEY_OFFLINE_INDEX := ne_sentinel_of_dotSlash B hB
  have hrArB : resolvePath A ≠ resolvePath B :=
    fun h => hAB (resolvePath_injOn A B hA hB h)
  have hfresh := refreshCache_fresh env ⟨mh, mlm, [⟨h1, A⟩, ⟨h2, B⟩]⟩
    (fun e => if e.path = A then bA else bB) hrk
    (by
      intro e he
      rcases List.mem_cons.mp he with h | h
      · subst h
        simpa using hnA
      · rw [List.mem_singleton] at h
        subst h
        simpa [hBA] using hnB)
    (by
      intro e he
      rcases List.mem_cons.mp he with h | h
      · subst h
        exact hpA
      · rw [List.mem_singleton] at h
        subst h
        exact hpB)
    hps
    (by simp [hAB])
    (by
      intro e he
      rcases List.mem_cons.mp he with h | h
      · subst h
        exact hA
      · rw [List.mem_singleton] at h
        subst h
        exact hB)
  simp only [List.map_cons, List.map_nil, List.length_cons, List.length_nil,
    eq_self_iff_true, if_true, hBA, if_false] at hfresh
  refine ⟨⟨[⟨A, h1, none⟩, ⟨B, h2, none⟩, ⟨IDB_KEY_OFFLINE_INDEX, mh, mlm⟩],
    [(resolvePath A, bA), (resolvePath B, bB)]⟩, ?_, ?_, ?_, ?_, ?_, ?_, ?_, ?_⟩
  · exact hfresh
  · simp [idxGet]
  · simp [idxGet, hAB]
  · simp [idxGet, hAsent, hBsent]
  · intro p hpA2 hpB2 hpS2
    simp [idxGet, Ne.symm hpA2, Ne.symm hpB2, Ne.symm hpS2]
  · simp [cacheGet]
  · simp [cacheGet, hrArB]
  · intro k hkA hkB
    simp [cacheGet, Ne.symm hkA, Ne.symm hkB]

/-- Witness for C3 at concrete paths, digests and environment. -/
theorem c3_convergence_witness :
    ∃ s', refreshCache
        ⟨fun p => if p = "./a" then some "bA" else
           if p = "./b" then some "bB" else none,
         fun _ => false, fun _ => false, false⟩
        (some ⟨"mh", some "lm", [⟨"h1", "./a"⟩, ⟨"h2", "./b"⟩]⟩) ⟨[], []⟩ =
      .done s' 2 := by
  obtain ⟨s', h, _⟩ := c3_convergence "./a" "./b" "h1" "h2" "bA" "bB" "mh"
    (some "lm")
    ⟨fun p => if p = "./a" then some "bA" else
       if p = "./b" then some "bB" else none,
     fun _ => false, fun _ => false, false⟩
    (by decide) (by decide) (by decide) rfl (by decide) (by decide)
    rfl rfl rfl
  exact ⟨s', h⟩

/-- Counterexample to claim C8 as stated.  First scenario: the sentinel
read fails (idbGetFails) while the index opened and the manifest fetch
succeeds — the handler treats the lost sentinel as a digest mismatch
and DOES trigger a refresh (even though the stored sentinel hash "h"
equals the fetched manifest hash), contradicting "no refresh is
triggered".  Second scenario: the manifest fetch fails — the handler
falls through to cache-or-network but logs nothing (fetchAssetIndex
swallows its errors silently), contradicting "the error is logged". -/
theorem c8_counterexample :
    handleFetch none "/app/" "/app/"
      ⟨false, true, fun _ => some ⟨"h", none, []⟩⟩
      ⟨[⟨IDB_KEY_OFFLINE_INDEX, "h", none⟩], []⟩ = ⟨.network, true, true⟩ ∧
    handleFetch none "/app/" "/app/"
      ⟨false, false, fun _ => none⟩ ⟨[], []⟩ = ⟨.network, false, false⟩ := by
  exact ⟨by decide, by decide⟩

/-- Claim C8 as amended: for a navigation-entry-point request with no
refresh in flight, (1) if opening the index fails the error is logged,
the whole check is skipped and the request is served from the cache
with network fallback, with no refresh; (2) if the manifest fetch
fails, the result is treated as no update WITHOUT logging a
manifest-fetch error, falling through to cache-or-network with no
refresh; (3) if reading the sentinel record fails while the index
opened, the error is logged and the check continues with no recorded
digest, so a successfully fetched manifest always counts as an update:
a refresh IS triggered and the request is served from the network. -/
theorem c8_amended_entry_check_faults (sp rp : String) (s : SWState)
    (env : FetchEnv)
    (hentry : requestKey sp rp = "" ∨ requestKey sp rp = "index.html") :
    (env.idbOpenFails = true →
      handleFetch none sp rp env s =
        ⟨cacheOrNetwork s (requestKey sp rp), false, true⟩) ∧
    (env.idbOpenFails = false → env.idbGetFails = false →
      (∀ lm, env.fetchAssetIndexResult lm = none) →
      handleFetch none sp rp env s =
        ⟨cacheOrNetwork s (requestKey sp rp), false, false⟩) ∧
    (∀ ai : AssetIndex, env.idbOpenFails = false → env.idbGetFails = true →
      env.fetchAssetIndexResult none = some ai →
      handleFetch none sp rp env s = ⟨.network, true, true⟩) := by
  refine ⟨?_, ?_, ?_⟩
  · intro hopen
    unfold handleFetch
    simp only [Option.isSome_none, Bool.false_eq_true, if_false, if_pos hentry,
      hopen, if_true]
  · intro hopen hget hfetch
    unfold handleFetch
    simp only [Option.isSome_none, Bool.false_eq_true, if_false, if_pos hentry,
      hopen, hget, hfetch]
  · intro ai hopen hget hfetch
    unfold handleFetch
    simp [hopen, hget, hfetch, if_pos hentry]

/-- Witness for the amended C8 at concrete requests and environments. -/
theorem c8_amended_entry_check_faults_witness :
    handleFetch none "/app/" "/app/" ⟨true, false, fun _ => none⟩ ⟨[], []⟩ =
      ⟨cacheOrNetwork ⟨[], []⟩ (requestKey "/app/" "/app/"), false, true⟩ ∧
    handleFetch none "/app/" "/app/" ⟨false, false, fun _ => none⟩ ⟨[], []⟩ =
      ⟨cacheOrNetwork ⟨[], []⟩ (requestKey "/app/" "/app/"), false, false⟩ ∧
    handleFetch none "/app/" "/app/"
      ⟨false, true, fun _ => some ⟨"h", none, []⟩⟩ ⟨[], []⟩ =
      ⟨.network, true, true⟩ := by
  refine ⟨?_, ?_, ?_⟩
  · exact (c8_amended_entry_check_faults "/app/" "/app/" ⟨[], []⟩
      ⟨true, false, fun _ => none⟩ (by decide)).1 rfl
  · exact (c8_amended_entry_check_faults "/app/" "/app/" ⟨[], []⟩
      ⟨false, false, fun _ => none⟩ (by decide)).2.1 rfl rfl (fun _ => rfl)
  · exact (c8_amended_entry_check_faults "/app/" "/app/" ⟨[], []⟩
      ⟨false, true, fun _ => some ⟨"h", none, []⟩⟩ (by decide)).2.2
      ⟨"h", none, []⟩ rfl rfl rfl

/-- Claim C9: parser round trip.  For the escaped manifest line built
from a leading backslash, a digest (any string of non-space
characters), the two-space delimiter and the path segment
path\nwith\\escapes (backslash-n and double-backslash as two-character
escape sequences), parseAssetIndexEntry returns the digest and a path
equal to the literal string with an actual newline after 'path' and a
single backslash before 'escapes', with the './' prefix prepended. -/
theorem c9_parser_round_trip (d : List Char) (h : ∀ c ∈ d, c ≠ ' ') :
    parseAssetIndexEntry
        (String.mk ('\\' :: (d ++ ' ' :: ' ' :: ("path\\nwith\\\\escapes").data))) =
      ⟨String.mk d, "./path\nwith\\escapes"⟩ := by
  unfold parseAssetIndexEntry
  rw [show (String.mk ('\\' :: (d ++ ' ' :: ' ' :: ("path\\nwith\\\\escapes").data))).data
    = '\\' :: (d ++ ' ' :: ' ' :: ("path\\nwith\\\\escapes").data) from rfl]
  rw [parseCh_escaped d _ h]
  show (⟨String.mk d, String.mk (dotSlashNorm (replaceAll ['\\', '\\'] ['\\']
    (replaceAll ['\\', 'n'] ['\n'] ("path\\nwith\\\\escapes").data)))⟩ : AssetEntry) = _
  have hdec : dotSlashNorm (replaceAll ['\\', '\\'] ['\\']
      (replaceAll ['\\', 'n'] ['\n'] ("path\\nwith\\\\escapes").data)) =
      ("./path\nwith\\escapes").data := by
    simp [replaceAll, dotSlashNorm, List.isPrefixOf]
  rw [hdec, String_mk_data]

theorem dotSlashNorm_keeps_mid (z x0 y : List Char)
    (h : z = x0 ++ '\\' :: '\n' :: y) :
    ∃ x, dotSlashNorm z = x ++ '\\' :: '\n' :: y := by
  unfold dotSlashNorm
  split_ifs
  · exact ⟨x0, h⟩
  · exact ⟨'.' :: '/' :: x0, by rw [h]; rfl⟩

/-- Claim C10: the escaped-path decode applies the newline un-escape
(each backslash-n pair becomes a newline) before the backslash
un-escape (each double backslash becomes a single backslash); as a
consequence, for every escaped line whose path segment contains the
three-character sequence backslash-backslash-n, the decoded path
contains a backslash immediately followed by an actual newline
character (rather than the letter n). -/
theorem c10_unescape_order (d u v : List Char) (hd : ∀ c ∈ d, c ≠ ' ') :
    ∃ x y, (parseAssetIndexEntry (String.mk ('\\' :: (d ++ ' ' :: ' ' ::
        (u ++ '\\' :: '\\' :: 'n' :: v))))).path.data =
      x ++ '\\' :: '\n' :: y := by
  unfold parseAssetIndexEntry
  rw [show (String.mk ('\\' :: (d ++ ' ' :: ' ' ::
    (u ++ '\\' :: '\\' :: 'n' :: v)))).data
    = '\\' :: (d ++ ' ' :: ' ' :: (u ++ '\\' :: '\\' :: 'n' :: v)) from rfl]
  rw [parseCh_escaped d _ hd]
  show ∃ x y, dotSlashNorm (replaceAll ['\\', '\\'] ['\\']
    (replaceAll ['\\', 'n'] ['\n'] (u ++ '\\' :: '\\' :: 'n' :: v))) =
    x ++ '\\' :: '\n' :: y
  obtain ⟨u2, k, heq, hk, hlast⟩ := bs_run_decomposition u
  obtain ⟨m, rfl⟩ : ∃ m, k = m + 2 := ⟨k - 2, by omega⟩
  have hraw : u ++ '\\' :: '\\' :: 'n' :: v =
      u2 ++ (List.replicate (m + 2) '\\' ++ 'n' :: v) := by
    rw [show u ++ '\\' :: '\\' :: 'n' :: v = (u ++ ['\\', '\\']) ++ 'n' :: v
      by simp]
    rw [heq, List.append_assoc]
  rw [hraw]
  have hhead : (List.replicate (m + 2) '\\' ++ 'n' :: v).head? ≠ some 'n' := by
    rw [show List.replicate (m + 2) '\\' ++ 'n' :: v =
      '\\' :: (List.replicate (m + 1) '\\' ++ 'n' :: v) from rfl]
    simp
  rw [replaceAll_bsn_append u2.length u2 _ le_rfl hhead]
  rw [show (m + 2) = (m + 1) + 1 from rfl, replaceAll_bsn_run (m + 1) v]
  have hlast1 : (replaceAll ['\\', 'n'] ['\n'] u2).getLast? ≠ some '\\' := by
    rcases replaceAll_getLast ['\\', 'n'] ['\n'] (by simp) u2.length u2 le_rfl
      with h | h
    · rw [h]
      exact hlast
    · rw [h]
      simp
  rw [replaceAll_bs2_append (replaceAll ['\\', 'n'] ['\n'] u2).length _ _ le_rfl
    (Or.inl hlast1)]
  rw [replaceAll_bs2_run (m + 1) (replaceAll ['\\', 'n'] ['\n'] v)]
  obtain ⟨j, hj⟩ : ∃ j, (m + 1 + 1) / 2 = j + 1 := ⟨(m + 1 + 1) / 2 - 1, by omega⟩
  have hz : replaceAll ['\\', '\\'] ['\\'] (replaceAll ['\\', 'n'] ['\n'] u2) ++
      (List.replicate ((m + 1 + 1) / 2) '\\' ++ '\n' ::
        replaceAll ['\\', '\\'] ['\\'] (replaceAll ['\\', 'n'] ['\n'] v)) =
      (replaceAll ['\\', '\\'] ['\\'] (replaceAll ['\\', 'n'] ['\n'] u2) ++
        List.replicate j '\\') ++ '\\' :: '\n' ::
        replaceAll ['\\', '\\'] ['\\'] (replaceAll ['\\', 'n'] ['\n'] v) := by
    rw [hj, List.replicate_succ' j '\\']
    simp [List.append_assoc]
  obtain ⟨x, hx⟩ := dotSlashNorm_keeps_mid _ _ _ hz
  exact ⟨x, replaceAll ['\\', '\\'] ['\\'] (replaceAll ['\\', 'n'] ['\n'] v), hx⟩

/-- Witness for C10 at a concrete escaped line with path segment
a backslash-backslash-n b. -/
theorem c10_unescape_order_witness :
    ∃ x y, (parseAssetIndexEntry (String.mk ('\\' :: (("h").data ++ ' ' :: ' ' ::
        (("a").data ++ '\\' :: '\\' :: 'n' :: ("b").data))))).path.data =
      x ++ '\\' :: '\n' :: y :=
  c10_unescape_order ("h").data ("a").data ("b").data (by decide)

/-- Witness for C9 at a concrete digest. -/
theorem c9_parser_round_trip_witness :
    parseAssetIndexEntry
        (String.mk ('\\' :: (("0a1b2c").data ++ ' ' :: ' ' ::
          ("path\\nwith\\\\escapes").data))) =
      ⟨"0a1b2c", "./path\nwith\\escapes"⟩ :=
  c9_parser_round_trip ("0a1b2c").data (by decide)

/-- Claim C7 (code bug): when the getAllKeys read of the index record
list fails, the cycle does not clear the store and re-synchronize; the
error listener dereferences the undefined event.source, throws, and the
cycle hangs with the state untouched. -/
theorem c7_read_failure_hangs (env : Env) (ai : AssetIndex) (s0 : SWState)
    (h : env.readKeysFails = true) :
    refreshCache env (some ai) s0 = .hung s0 := by
  unfold refreshCache
  rw [h]
  simp

/-- Witness for C7 at a concrete environment, manifest and state. -/
theorem c7_read_failure_hangs_witness :
    refreshCache ⟨fun _ => none, fun _ => false, fun _ => false, true⟩
      (some ⟨"h", none, []⟩) ⟨[], []⟩ = .hung ⟨[], []⟩ :=
  c7_read_failure_hangs _ _ _ rfl

/-- Claim C5: eviction.  From a converged state for the manifest
entries A@h1, B@h2, a successful refresh against the manifest with
entries A@h1 only (B removed) leaves the index containing only A's
record plus the sentinel, and the cache containing only A's body; B is
absent from both stores, with zero asset fetches. -/
theorem c5_eviction (A B h1 h2 bA bB mh mh2 : String) (mlm mlm2 : Option String)
    (env : Env) (hAB : A ≠ B)
    (hA : startsWithDotSlash A = true) (hB : startsWithDotSlash B = true)
    (hrk : env.readKeysFails = false)
    (hdf : ∀ p, env.deleteFails p = false)
    (hps : env.putFails IDB_KEY_OFFLINE_INDEX = false) :
    ∃ s', refreshCache env (some ⟨mh2, mlm2, [⟨h1, A⟩]⟩)
        ⟨[⟨A, h1, none⟩, ⟨B, h2, none⟩, ⟨IDB_KEY_OFFLINE_INDEX, mh, mlm⟩],
         [(resolvePath A, bA), (resolvePath B, bB)]⟩ = .done s' 0 ∧
      idxGet s'.idx A = some ⟨A, h1, none⟩ ∧
      idxGet s'.idx B = none ∧
      idxGet s'.idx IDB_KEY_OFFLINE_INDEX = some ⟨IDB_KEY_OFFLINE_INDEX, mh2, mlm2⟩ ∧
      (∀ p, p ≠ A → p ≠ IDB_KEY_OFFLINE_INDEX → idxGet s'.idx p = none) ∧
      cacheGet s'.cache (resolvePath A) = some bA ∧
      cacheGet s'.cache (resolvePath B) = none ∧
      (∀ k, k ≠ resolvePath A → cacheGet s'.cache k = none) := by
  have hBA : ¬(B = A) := fun h => hAB h.symm
  have hAsent : A ≠ IDB_KEY_OFFLINE_INDEX := ne_sentinel_of_dotSlash A hA
  have hBsent : B ≠ IDB_KEY_OFFLINE_INDEX := ne_sentinel_of_dotSlash B hB
  have hrArB : resolvePath A ≠ resolvePath B :=
    fun h => hAB (resolvePath_injOn A B hA hB h)
  set s1 : SWState :=
    ⟨[⟨A, h1, none⟩, ⟨B, h2, none⟩, ⟨IDB_KEY_OFFLINE_INDEX, mh, mlm⟩],
     [(resolvePath A, bA), (resolvePath B, bB)]⟩ with hs1
  have hprev : s1.idx.map (fun r => r.path) = [A, B, IDB_KEY_OFFLINE_INDEX] := rfl
  have hcgA : cacheGet s1.cache (resolvePath A) = some bA := by
    simp [hs1, cacheGet]
  have hgA : idxGet s1.idx A = some ⟨A, h1, none⟩ := by
    simp [hs1, idxGet]
  set sP : SWState := pruneStaleIndex env [A, B, IDB_KEY_OFFLINE_INDEX] s1 with hsP
  have hentry : idxGet sP.idx A = some ⟨A, h1, none⟩ := by
    rw [hsP, idxGet_pruneStaleIndex]
    rw [if_neg (by
      rintro ⟨-, hfalse, -⟩
      rw [hcgA] at hfalse
      simp at hfalse)]
    exact hgA
  have hupd : updateAllAssets env [⟨h1, A⟩] sP = (sP, 0, false) := by
    apply updateAllAssets_skip
    intro e he
    rw [List.mem_singleton] at he
    subst he
    exact ⟨⟨A, h1, none⟩, hentry, rfl⟩
  have hdone := refreshCache_success env ⟨mh2, mlm2, [⟨h1, A⟩]⟩ s1 sP 0 hrk
    (by rw [hprev]; exact hupd) hps
  rw [hprev] at hdone
  set sE : SWState := evictIndex env [A, B, IDB_KEY_OFFLINE_INDEX] [A] sP with hsE
  have hEcache : sE.cache = s1.cache := by
    rw [hsE, evictIndex_cache, hsP, pruneStaleIndex_cache]
  have hEeta : sE = ⟨sE.idx, [(resolvePath A, bA), (resolvePath B, bB)]⟩ := by
    rw [show ([(resolvePath A, bA), (resolvePath B, bB)] : BlobCache) = s1.cache
      from rfl, ← hEcache]
  have hcontA : List.contains [A] (derivedPath (resolvePath A)) = true := by
    rw [derivedPath_resolvePath A hA]
    simp [List.elem_iff]
  have hcontB : List.contains [A] (derivedPath (resolvePath B)) = false := by
    rw [derivedPath_resolvePath B hB]
    simp [List.elem_iff]
    exact hBA
  have hstepA : evictCacheStep [A]
      ⟨sE.idx, [(resolvePath A, bA), (resolvePath B, bB)]⟩ (resolvePath A) =
      ⟨sE.idx, [(resolvePath A, bA), (resolvePath B, bB)]⟩ := by
    unfold evictCacheStep
    rw [hcontA, if_pos rfl]
  have hstepB : evictCacheStep [A]
      ⟨sE.idx, [(resolvePath A, bA), (resolvePath B, bB)]⟩ (resolvePath B) =
      ⟨sE.idx, [(resolvePath A, bA)]⟩ := by
    unfold evictCacheStep
    rw [hcontB]
    simp only [Bool.false_eq_true, if_false]
    rw [show cacheDelete [(resolvePath A, bA), (resolvePath B, bB)] (resolvePath B)
      = [(resolvePath A, bA)] by simp [cacheDelete, hrArB]]
  have hC : evictCache [A] sE = ⟨sE.idx, [(resolvePath A, bA)]⟩ := by
    conv_lhs => rw [hEeta]
    unfold evictCache
    simp only [List.map_cons, List.map_nil, List.foldl_cons, List.foldl_nil]
    rw [hstepA, hstepB]
  have hfinal : refreshCache env (some ⟨mh2, mlm2, [⟨h1, A⟩]⟩) s1 =
      .done ⟨idxPut (evictCache [A] sE).idx ⟨IDB_KEY_OFFLINE_INDEX, mh2, mlm2⟩,
             (evictCache [A] sE).cache⟩ 0 := hdone
  rw [hC] at hfinal
  refine ⟨⟨idxPut sE.idx ⟨IDB_KEY_OFFLINE_INDEX, mh2, mlm2⟩, [(resolvePath A, bA)]⟩,
    hfinal, ?_, ?_, ?_, ?_, ?_, ?_, ?_⟩
  · rw [show (⟨idxPut sE.idx ⟨IDB_KEY_OFFLINE_INDEX, mh2, mlm2⟩,
      [(resolvePath A, bA)]⟩ : SWState).idx = idxPut sE.idx
      ⟨IDB_KEY_OFFLINE_INDEX, mh2, mlm2⟩ from rfl]
    rw [idxGet_idxPut, if_neg (by simpa using Ne.symm hAsent)]
    rw [hsE, idxGet_evictIndex,
      if_neg (by rintro ⟨-, hfalse, -⟩; rw [hcontA] at *; simp [List.elem_iff] at hfalse)]
    exact hentry
  · rw [show (⟨idxPut sE.idx ⟨IDB_KEY_OFFLINE_INDEX, mh2, mlm2⟩,
      [(resolvePath A, bA)]⟩ : SWState).idx = idxPut sE.idx
      ⟨IDB_KEY_OFFLINE_INDEX, mh2, mlm2⟩ from rfl]
    rw [idxGet_idxPut, if_neg (by simpa using Ne.symm hBsent)]
    rw [hsE, idxGet_evictIndex, if_pos ?_]
    refine ⟨by simp, ?_, hdf B⟩
    simp [List.elem_iff]
    exact hBA
  · rw [show (⟨idxPut sE.idx ⟨IDB_KEY_OFFLINE_INDEX, mh2, mlm2⟩,
      [(resolvePath A, bA)]⟩ : SWState).idx = idxPut sE.idx
      ⟨IDB_KEY_OFFLINE_INDEX, mh2, mlm2⟩ from rfl]
    rw [idxGet_idxPut, if_pos rfl]
  · intro p hpA hpS
    rw [show (⟨idxPut sE.idx ⟨IDB_KEY_OFFLINE_INDEX, mh2, mlm2⟩,
      [(resolvePath A, bA)]⟩ : SWState).idx = idxPut sE.idx
      ⟨IDB_KEY_OFFLINE_INDEX, mh2, mlm2⟩ from rfl]
    rw [idxGet_idxPut, if_neg (by simpa using Ne.symm hpS)]
    by_cases hpB : p = B
    · subst hpB
      rw [hsE, idxGet_evictIndex, if_pos ?_]
      refine ⟨by simp, ?_, hdf p⟩
      simp [List.elem_iff]
      exact fun h => hpA h
    · rw [hsE, idxGet_evictIndex, if_neg ?_]
      · rw [hsP, idxGet_pruneStaleIndex, if_neg ?_]
        · simp [hs1, idxGet, Ne.symm hpA, Ne.symm hpB, Ne.symm hpS]
        · rintro ⟨hmem, -, -⟩
          simp only [List.mem_cons, List.mem_singleton, List.not_mem_nil] at hmem
          rcases hmem with h | h | h
          exacts [hpA h, hpB h, hpS (by simpa using h)]
      · rintro ⟨hmem, -, -⟩
        simp only [List.mem_cons, List.mem_singleton, List.not_mem_nil] at hmem
        rcases hmem with h | h | h
        exacts [hpA h, hpB h, hpS (by simpa using h)]
  · simp [cacheGet]
  · simp [cacheGet, hrArB]
  · intro k hkA
    simp [cacheGet, Ne.symm hkA]

/-- Claim C4: idempotence.  From a state converged for an unchanged
manifest, a refresh cycle performs zero asset network fetches (every
entry's recorded digest equals the manifest digest, so the network is
skipped) and leaves the index extensionally identical and the cache
identical to the state before the run. -/
theorem c4_idempotence (ai : AssetIndex) (s : SWState) (env : Env)
    (hconv : Converged ai s)
    (hrk : env.readKeysFails = false)
    (hps : env.putFails IDB_KEY_OFFLINE_INDEX = false) :
    ∃ s', refreshCache env (some ai) s = .done s' 0 ∧
      (∀ p, idxGet s'.idx p = idxGet s.idx p) ∧ s'.cache = s.cache := by
  obtain ⟨hrec, hsent, hdom, hcached, hckeys, hds⟩ := hconv
  set prev := s.idx.map (fun r => r.path) with hprev
  set known := ai.entries.map (fun e => e.path) with hknown
  set sP : SWState := pruneStaleIndex env prev s with hsP
  have hPcache : sP.cache = s.cache := pruneStaleIndex_cache env prev s
  have hentry : ∀ e ∈ ai.entries, idxGet sP.idx e.path = some ⟨e.path, e.hash, none⟩ := by
    intro e he
    rw [hsP, idxGet_pruneStaleIndex]
    rw [if_neg (by
      rintro ⟨-, hfalse, -⟩
      rw [hcached e he] at hfalse
      simp at hfalse)]
    exact hrec e he
  have hupd : updateAllAssets env ai.entries sP = (sP, 0, false) :=
    updateAllAssets_skip env ai.entries sP
      (fun e he => ⟨⟨e.path, e.hash, none⟩, hentry e he, rfl⟩)
  have hdone := refreshCache_success env ai s sP 0 hrk hupd hps
  set sE : SWState := evictIndex env prev known sP with hsE
  have hEcache : sE.cache = s.cache := by
    rw [hsE, evictIndex_cache, hPcache]
  have hCid : evictCache known sE = sE := by
    apply evictCache_id
    intro k hk
    rw [hEcache] at hk
    have := hckeys k hk
    simp only [List.mem_map] at this
    obtain ⟨e, he, hek⟩ := this
    rw [← hek, derivedPath_resolvePath e.path (hds e he), List.elem_iff, hknown]
    exact List.mem_map_of_mem (fun e => e.path) he
  have hfinal : refreshCache env (some ai) s =
      .done ⟨idxPut (evictCache known sE).idx
          ⟨IDB_KEY_OFFLINE_INDEX, ai.hash, ai.lastModified⟩,
        (evictCache known sE).cache⟩ 0 := hdone
  rw [hCid] at hfinal
  refine ⟨⟨idxPut sE.idx ⟨IDB_KEY_OFFLINE_INDEX, ai.hash, ai.lastModified⟩, sE.cache⟩,
    hfinal, ?_, hEcache⟩
  intro p
  rw [show (⟨idxPut sE.idx ⟨IDB_KEY_OFFLINE_INDEX, ai.hash, ai.lastModified⟩,
    sE.cache⟩ : SWState).idx = idxPut sE.idx
    ⟨IDB_KEY_OFFLINE_INDEX, ai.hash, ai.lastModified⟩ from rfl]
  rw [idxGet_idxPut]
  by_cases hpS : p = IDB_KEY_OFFLINE_INDEX
  · subst hpS
    rw [if_pos rfl, hsent]
  · rw [if_neg (by simpa using Ne.symm hpS)]
    by_cases hmem : p ∈ known
    · have hcont : List.contains known p = true := List.elem_iff.mpr hmem
      obtain ⟨e, he, hep⟩ : ∃ e ∈ ai.entries, e.path = p := by
        rw [hknown] at hmem
        simpa using hmem
      rw [hsE, idxGet_evictIndex, if_neg (by
        rintro ⟨-, hfalse, -⟩
        rw [hcont] at hfalse
        simp at hfalse)]
      rw [hsP, idxGet_pruneStaleIndex, if_neg (by
        rintro ⟨-, hfalse, -⟩
        rw [← hep, hcached e he] at hfalse
        simp at hfalse)]
    · have hnone : idxGet s.idx p = none := by
        rcases hget : idxGet s.idx p with - | r
        · rfl
        · obtain ⟨hrp, hrmem⟩ := idxGet_some_path s.idx p r hget
          rcases hdom r hrmem with h | h
          · exact absurd (hrp ▸ h) hpS
          · exact absurd (hrp ▸ h) hmem
      rw [hsE, idxGet_evictIndex]
      split_ifs with h1
      · rw [hnone]
      · rw [hsP, idxGet_pruneStaleIndex]
        split_ifs with h2
        · rw [hnone]
        · rfl

/-- Witness for C4 at a concrete converged state and environment. -/
theorem c4_idempotence_witness :
    ∃ s', refreshCache ⟨fun _ => none, fun _ => false, fun _ => false, false⟩
        (some ⟨"mh", some "lm", [⟨"h1", "./a"⟩]⟩)
        ⟨[⟨"./a", "h1", none⟩, ⟨IDB_KEY_OFFLINE_INDEX, "mh", some "lm"⟩],
         [("a", "bA")]⟩ = .done s' 0 := by
  obtain ⟨s', hrun, -, -⟩ := c4_idempotence ⟨"mh", some "lm", [⟨"h1", "./a"⟩]⟩
    ⟨[⟨"./a", "h1", none⟩, ⟨IDB_KEY_OFFLINE_INDEX, "mh", some "lm"⟩], [("a", "bA")]⟩
    ⟨fun _ => none, fun _ => false, fun _ => false, false⟩
    (by decide) rfl rfl
  exact ⟨s', hrun⟩

/-- Counterexample to claim C6 as stated: in a refresh cycle where a
single entry's index write fails (./a: fetch succeeded, idbPut
rejected), that entry's prior cache state is NOT left untouched — the
cache body for ./a has already been replaced by the newly fetched one —
and the remaining steps of the cycle (eviction passes, sentinel write)
do not run: the cycle rejects with the sentinel record absent. -/
theorem c6_counterexample :
    refreshCache
        ⟨fun p => if p = "./a" then some "bodyA2" else
           if p = "./b" then some "bodyB2" else none,
         fun p => p == "./a", fun _ => false, false⟩
        (some ⟨"mh3", some "lm3", [⟨"h1x", "./a"⟩, ⟨"h2x", "./b"⟩]⟩)
        ⟨[⟨"./a", "h1", none⟩, ⟨"./b", "h2", none⟩,
          ⟨IDB_KEY_OFFLINE_INDEX, "mh", some "lm"⟩],
         [("a", "bodyA"), ("b", "bodyB")]⟩ =
      .rejected ⟨[⟨"./a", "h1", none⟩, ⟨"./b", "h2x", none⟩],
        [("a", "bodyA2"), ("b", "bodyB2")]⟩ 2 ∧
    cacheGet [("a", "bodyA2"), ("b", "bodyB2")] "a" = some "bodyA2" ∧
    cacheGet [("a", "bodyA"), ("b", "bodyB")] "a" = some "bodyA" ∧
    idxGet [⟨"./a", "h1", none⟩, ⟨"./b", "h2x", none⟩] IDB_KEY_OFFLINE_INDEX =
      none := by
  refine ⟨by decide, by decide, by decide, by decide⟩

/-- Claim C6 as amended: in a refresh cycle over the changed manifest
entries ./a@ha2, ./b@hb2 from the converged state for ./a@ha1, ./b@hb1,
when ./a's index write fails after a successful fetch (i), its newly
fetched body is already stored in the cache while its index record
keeps the prior digest; when ./a's asset fetch itself fails (ii), its
cache and index state are both untouched.  In both cases the update
step still ran for the other entry ./b, the cycle rejects before the
eviction passes and the sentinel write (the sentinel record is left
absent — the prune pass had deleted it), and ./a is retried on the next
cycle because its recorded digest ha1 still differs from the manifest
digest ha2. -/
theorem c6_amended_per_entry_failure
    (ha1 ha2 hb1 hb2 ba1 ba2 bb1 bb2 mh1 mh2 : String)
    (lm1 lm2 : Option String) (hA : ha1 ≠ ha2) (hB : hb1 ≠ hb2) :
    (refreshCache
        ⟨fun p => if p = "./a" then some ba2 else
           if p = "./b" then some bb2 else none,
         fun p => p == "./a", fun _ => false, false⟩
        (some ⟨mh2, lm2, [⟨ha2, "./a"⟩, ⟨hb2, "./b"⟩]⟩)
        ⟨[⟨"./a", ha1, none⟩, ⟨"./b", hb1, none⟩,
          ⟨IDB_KEY_OFFLINE_INDEX, mh1, lm1⟩],
         [("a", ba1), ("b", bb1)]⟩ =
      .rejected ⟨[⟨"./a", ha1, none⟩, ⟨"./b", hb2, none⟩],
        [("a", ba2), ("b", bb2)]⟩ 2) ∧
    (refreshCache
        ⟨fun p => if p = "./b" then some bb2 else none,
         fun _ => false, fun _ => false, false⟩
        (some ⟨mh2, lm2, [⟨ha2, "./a"⟩, ⟨hb2, "./b"⟩]⟩)
        ⟨[⟨"./a", ha1, none⟩, ⟨"./b", hb1, none⟩,
          ⟨IDB_KEY_OFFLINE_INDEX, mh1, lm1⟩],
         [("a", ba1), ("b", bb1)]⟩ =
      .rejected ⟨[⟨"./a", ha1, none⟩, ⟨"./b", hb2, none⟩],
        [("a", ba1), ("b", bb2)]⟩ 2) ∧
    idxGet [⟨"./a", ha1, none⟩, ⟨"./b", hb2, none⟩] "./b" =
      some ⟨"./b", hb2, none⟩ ∧
    idxGet [⟨"./a", ha1, none⟩, ⟨"./b", hb2, none⟩] "./a" =
      some ⟨"./a", ha1, none⟩ ∧
    idxGet [⟨"./a", ha1, none⟩, ⟨"./b", hb2, none⟩] IDB_KEY_OFFLINE_INDEX =
      none ∧
    (idxGet [⟨"./a", ha1, none⟩, ⟨"./b", hb2, none⟩] "./a").map
      (fun r => r.hash) ≠ some ha2 := by
  refine ⟨?_, ?_, ?_, ?_, ?_, ?_⟩
  · simp [refreshCache, pruneStaleIndex, pruneStep, updateAllAssets, updateFold,
      updateOfflineAsset, updateOfflineAssetFetch, idxGet, idxPut, idxDelete,
      cacheGet, cachePut, cacheDelete, resolvePath, startsWithDotSlash,
      IDB_KEY_OFFLINE_INDEX, hA, hB]
  · simp [refreshCache, pruneStaleIndex, pruneStep, updateAllAssets, updateFold,
      updateOfflineAsset, updateOfflineAssetFetch, idxGet, idxPut, idxDelete,
      cacheGet, cachePut, cacheDelete, resolvePath, startsWithDotSlash,
      IDB_KEY_OFFLINE_INDEX, hA, hB]
  · simp [idxGet]
  · simp [idxGet]
  · simp [idxGet, IDB_KEY_OFFLINE_INDEX]
  · simp [idxGet, hA]

/-- Witness for the amended C6 at concrete digests and bodies. -/
theorem c6_amended_per_entry_failure_witness :
    refreshCache
        ⟨fun p => if p = "./a" then some "bodyA2" else
           if p = "./b" then some "bodyB2" else none,
         fun p => p == "./a", fun _ => false, false⟩
        (some ⟨"mh2", some "lm2", [⟨"h1x", "./a"⟩, ⟨"h2x", "./b"⟩]⟩)
        ⟨[⟨"./a", "h1", none⟩, ⟨"./b", "h2", none⟩,
          ⟨IDB_KEY_OFFLINE_INDEX, "mh", some "lm"⟩],
         [("a", "bodyA"), ("b", "bodyB")]⟩ =
      .rejected ⟨[⟨"./a", "h1", none⟩, ⟨"./b", "h2x", none⟩],
        [("a", "bodyA2"), ("b", "bodyB2")]⟩ 2 :=
  (c6_amended_per_entry_failure "h1" "h1x" "h2" "h2x" "bodyA" "bodyA2"
    "bodyB" "bodyB2" "mh" "mh2" (some "lm") (some "lm2")
    (by decide) (by decide)).1

/-- Witness for C5 at concrete paths, digests and environment. -/
theorem c5_eviction_witness :
    ∃ s', refreshCache
        ⟨fun _ => none, fun _ => false, fun _ => false, false⟩
        (some ⟨"mh2", some "lm2", [⟨"h1", "./a"⟩]⟩)
        ⟨[⟨"./a", "h1", none⟩, ⟨"./b", "h2", none⟩,
          ⟨IDB_KEY_OFFLINE_INDEX, "mh", some "lm"⟩],
         [(resolvePath "./a", "bA"), (resolvePath "./b", "bB")]⟩ =
      .done s' 0 ∧ idxGet s'.idx "./b" = none ∧
      cacheGet s'.cache (resolvePath "./b") = none := by
  obtain ⟨s', hrun, -, hidxB, -, -, -, hcB, -⟩ :=
    c5_eviction "./a" "./b" "h1" "h2" "bA" "bB" "mh" "mh2" (some "lm") (some "lm2")
      ⟨fun _ => none, fun _ => false, fun _ => false, false⟩
      (by decide) (by decide) (by decide) rfl (fun _ => rfl) rfl
  exact ⟨s', hrun, hidxB, hcB⟩

end SW
